import Mathlib

/-!
Verification of the explodey_sweeper minesweeper variant.

The definitions below are a shallow embedding of the Python source
(`explodey_sweeper.py`, with `minesweeper.py` sharing the identical
`fill_board_with_numbers` logic).  Python's mutable objects are threaded
explicitly; Python characters are Lean `Char`; Python sets of coordinate
tuples are Lean lists manipulated with set semantics (`List.insert`,
membership-filtering intersection), mirroring `set.add` /
`set.intersection`.  Python integers are `Int` (coordinates may be
negative before bounds checks); board dimensions are `Nat`.
-/

/-- The glyph for an empty (zero-adjacency) cell, `EMPTY_SPACE = '░'`. -/
def EMPTY_SPACE : Char := '░'

/-- The glyph marking a mine, `MINE = '*'`. -/
def MINE : Char := '*'

/-- The 8 offsets adjacent to a cell, starting from the left square then
moving clockwise, as in the source's `adjacent_cells` tuple. -/
def adjacent_cells : List (Int × Int) :=
  [(-1, 0), (-1, -1), (0, -1), (1, -1), (1, 0), (1, 1), (0, 1), (-1, 1)]

/-- A board cell: its character plus revealed/flagged booleans
(dataclass `Cell`). -/
structure Cell where
  character : Char := EMPTY_SPACE
  revealed : Bool := false
  flagged : Bool := false
deriving DecidableEq, Repr

instance : Inhabited Cell := ⟨{}⟩

/-- The game board (dataclass `Board`).  `cells` is the flat row-major
list indexed by `y*width+x`; `mine_locations` is the set of mine
coordinates, embedded as a list with set semantics. -/
structure Board where
  cells : List Cell
  mine_locations : List (Int × Int)
  width : Nat
  height : Nat
  number_of_mines : Nat
deriving DecidableEq, Repr

/-- Flat index `y*self.width+x` used throughout the source.  Python list
indexing would fault on out-of-range accesses; all theorems about board
operations carry the in-bounds facts that the source's callers establish. -/
def Board.idx (b : Board) (x y : Int) : Nat := (y * b.width + x).toNat

/-- Read the cell at `(x, y)` (`self.cells[y*self.width+x]`). -/
def Board.getCell (b : Board) (x y : Int) : Cell := b.cells.getD (b.idx x y) {}

/-- `Board.get_cell_character`. -/
def Board.get_cell_character (b : Board) (x y : Int) : Char := (b.getCell x y).character

/-- `Board.is_revealed`. -/
def Board.is_revealed (b : Board) (x y : Int) : Bool := (b.getCell x y).revealed

/-- `Board.is_flagged`. -/
def Board.is_flagged (b : Board) (x y : Int) : Bool := (b.getCell x y).flagged

/-- Overwrite the cell at `(x, y)`. -/
def Board.setCell (b : Board) (x y : Int) (c : Cell) : Board :=
  { b with cells := b.cells.set (b.idx x y) c }

/-- `cell.revealed = True` on the cell at `(x, y)`. -/
def Board.setRevealed (b : Board) (x y : Int) : Board :=
  b.setCell x y { b.getCell x y with revealed := true }

/-- `cell.character = c` on the cell at `(x, y)`. -/
def Board.setCharacter (b : Board) (x y : Int) (c : Char) : Board :=
  b.setCell x y { b.getCell x y with character := c }

/-- `Board.flag_cell`: sets the flagged bit of the cell. -/
def Board.flag_cell (b : Board) (x y : Int) : Board :=
  b.setCell x y { b.getCell x y with flagged := true }

/-- `Board.unflag_cell`: clears the flagged bit of the cell. -/
def Board.unflag_cell (b : Board) (x y : Int) : Board :=
  b.setCell x y { b.getCell x y with flagged := false }

/-- `Board.reveal_all_mines`: `for mine_cell in self.mine_locations:`
set the revealed bit of that cell. -/
def Board.reveal_all_mines (b : Board) : Board :=
  b.mine_locations.foldl (fun bb p => bb.setRevealed p.1 p.2) b

/-- `Board.reset`: set `revealed = False` and `flagged = False` on every
cell, leaving everything else alone. -/
def Board.reset (b : Board) : Board :=
  { b with cells := b.cells.map fun c => { c with revealed := false, flagged := false } }

/-- One iteration of the `for adjacent_cell in adjacent_cells` loop body of
`Board.reveal_surrounding_cells`, threading the mutable state
`(self, next_cells)` and taking the recursive call as the parameter `rec`.
The trailing fold is the source's nested
`for cell in next_cells: self.reveal_surrounding_cells(cell[0], cell[1])`
loop, which runs inside every iteration of the outer loop (an
out-of-bounds offset `continue`s past it). -/
def surrStep (rec : Board → Int → Int → Board) (sx sy : Int)
    (st : Board × List (Int × Int)) (d : Int × Int) : Board × List (Int × Int) :=
  let x := sx + d.1
  let y := sy + d.2
  if x < 0 ∨ y < 0 ∨ (st.1.width : Int) ≤ x ∨ (st.1.height : Int) ≤ y then st
  else
    let cell := st.1.getCell x y
    let st1 : Board × List (Int × Int) :=
      if cell.character = EMPTY_SPACE ∧ cell.revealed = false then
        (st.1.setRevealed x y, st.2 ++ [(x, y)])
      else if ¬ cell.character = MINE then
        (st.1.setRevealed x y, st.2)
      else st
    (st1.2.foldl (fun bb p => rec bb p.1 p.2) st1.1, st1.2)

/-- `Board.reveal_surrounding_cells`, with the recursion depth made
explicit as fuel (the Python recursion's termination is proved below:
results are identical for every sufficient fuel). -/
def Board.reveal_surrounding_cells (fuel : Nat) : Board → Int → Int → Board :=
  Nat.rec (motive := fun _ => Board → Int → Int → Board)
    (fun b _ _ => b)
    (fun _ rec b sx sy =>
      (adjacent_cells.foldl (surrStep (fun bb px py => rec bb px py) sx sy) (b, [])).1)
    fuel

/-- Count of cells that are empty-space and unrevealed; this strictly
decreases at every recursive call of the flood fill, so
`unrevealedEmptyCount + 1` is always sufficient fuel. -/
def emptyUnrevealed (c : Cell) : Bool :=
  c.character == EMPTY_SPACE && !c.revealed

/-- See `emptyUnrevealed`. -/
def Board.unrevealedEmptyCount (b : Board) : Nat :=
  b.cells.countP emptyUnrevealed

/-- `Board.reveal_cell`: reveal the cell; if its character is
`EMPTY_SPACE`, run `reveal_surrounding_cells` (with provably sufficient
fuel standing in for Python's unbounded recursion). -/
def Board.reveal_cell (b : Board) (x y : Int) : Board :=
  let b2 := b.setRevealed x y
  if (b2.getCell x y).character = EMPTY_SPACE then
    Board.reveal_surrounding_cells (b2.unrevealedEmptyCount + 1) b2 x y
  else b2

/-- The game states (enum `State`). -/
inductive State where
  | PLAYING
  | PLAYER_WON
  | PLAYER_LOST
  | PLAYER_QUIT
  | NEW_GAME
  | RESET
  | MENU
deriving DecidableEq, Repr

/-- The controller (dataclass `Controller`).  `mode` holds the raw
command string, exactly as `self.mode = command` stores it. -/
structure Controller where
  board : Board
  current_state : State
  mode : String
  mines_left : Int
  flagged_locations : List (Int × Int)
deriving DecidableEq, Repr

/-- Python `flagged_locations.intersection(mine_locations)` on the
list-with-set-semantics embedding: the members of the first set that
also belong to the second. -/
def setIntersection (l1 l2 : List (Int × Int)) : List (Int × Int) :=
  l1.filter fun a => a ∈ l2

/-- `Controller.check_win`: true iff the intersection of the flagged set
with the mine set has the same size as the mine set. -/
def check_win (c : Controller) : Bool :=
  (setIntersection c.flagged_locations c.board.mine_locations).length
    == c.board.mine_locations.length

/-- `Controller.convert_move_to_xy`: decode the two characters of the
token independently; `ord` is `Char.toNat`.  A digit maps to its value,
any other character maps to `ord(char) - ord('a') + 10`. -/
def convert_move_to_xy (move : String) : Int × Int :=
  let chars := move.data
  let col := chars.getD 0 default
  let row := chars.getD 1 default
  let x : Int :=
    if '0'.toNat ≤ col.toNat ∧ col.toNat ≤ '9'.toNat then
      ((col.toNat - '0'.toNat : Nat) : Int)
    else (col.toNat : Int) - ('a'.toNat : Int) + 10
  let y : Int :=
    if '0'.toNat ≤ row.toNat ∧ row.toNat ≤ '9'.toNat then
      ((row.toNat - '0'.toNat : Nat) : Int)
    else (row.toNat : Int) - ('a'.toNat : Int) + 10
  (x, y)

/-- `Controller.process_move`: dispatch on the stored mode string.  The
source's `print` calls are pure output and are dropped. -/
def process_move (c : Controller) (x y : Int) : Controller :=
  if c.mode = "reveal" then
    if c.board.is_revealed x y then c
    else if c.board.is_flagged x y then c
    else if c.board.get_cell_character x y = MINE then
      { c with board := c.board.reveal_all_mines, current_state := State.PLAYER_LOST }
    else { c with board := c.board.reveal_cell x y }
  else if c.mode = "flag" then
    if c.board.is_revealed x y then c
    else if c.board.is_flagged x y then c
    else
      let c1 := { c with board := c.board.flag_cell x y,
                         flagged_locations := c.flagged_locations.insert (x, y),
                         mines_left := c.mines_left - 1 }
      if check_win c1 then { c1 with current_state := State.PLAYER_WON } else c1
  else if c.mode = "unflag" then
    if c.board.is_revealed x y then c
    else if c.board.is_flagged x y then
      { c with board := c.board.unflag_cell x y, mines_left := c.mines_left + 1 }
    else c
  else c

/-- Python's `command.lower()`: lower-case every character.  (The
library's `String.toLower` is extensionally the same map; we map over
the underlying character list so that concrete runs reduce inside the
kernel.) -/
def strLower (s : String) : String := String.mk (s.data.map Char.toLower)

/-- `Controller.process_command`: lower-case the command; for the three
move commands store the mode, then validate the move token's length,
decode it and bounds-check it before calling `process_move`.  The move
token (read interactively by `get_move` in the source) is passed as a
parameter. -/
def process_command (c : Controller) (command : String) (move : String) : Controller :=
  let command := strLower command
  if command = "reveal" ∨ command = "flag" ∨ command = "unflag" then
    let c1 := { c with mode := command }
    if move.length = 2 then
      let mp := convert_move_to_xy move
      if 0 ≤ mp.1 ∧ mp.1 < (c1.board.width : Int) ∧ 0 ≤ mp.2 ∧ mp.2 < (c1.board.height : Int) then
        process_move c1 mp.1 mp.2
      else c1
    else c1
  else if command = "new" then { c with current_state := State.NEW_GAME }
  else if command = "reset" then { c with current_state := State.RESET }
  else if command = "quit" then { c with current_state := State.PLAYER_QUIT }
  else c

/-- `Controller.reset_game`: reset the board, restore the counter, empty
the flagged set, return to `PLAYING`. -/
def reset_game (c : Controller) : Controller :=
  { c with board := c.board.reset,
           mines_left := (c.board.number_of_mines : Int),
           flagged_locations := [],
           current_state := State.PLAYING }

/-- The controller as it stands when play begins: `build_new_game` has
just stored the fresh board, set `mines_left` to the mine count and moved
to `PLAYING`; `mode` still has its default `"reveal"` and no cell has
been flagged. -/
def init_controller (b : Board) : Controller :=
  { board := b, current_state := State.PLAYING, mode := "reveal",
    mines_left := (b.number_of_mines : Int), flagged_locations := [] }

/-- `str(int(cell) + 1)` specialised to the single-digit characters the
board can hold (digit characters have consecutive codes). -/
def digitSucc (c : Char) : Char := Char.ofNat (c.toNat + 1)

/-- One iteration of the `for position in adjacent_cells` loop body of
`fill_board_with_numbers`: bounds-check the neighbour of the mine `m`,
then turn `EMPTY_SPACE` into `'1'`, skip a `MINE`, and increment any
other (digit) character. -/
def fillMineStep (m : Int × Int) (b : Board) (d : Int × Int) : Board :=
  let ax := m.1 + d.1
  let ay := m.2 + d.2
  if ax < 0 ∨ ay < 0 ∨ (b.width : Int) ≤ ax ∨ (b.height : Int) ≤ ay then b
  else
    let cch := b.get_cell_character ax ay
    if cch = EMPTY_SPACE then b.setCharacter ax ay '1'
    else if cch = MINE then b
    else b.setCharacter ax ay (digitSucc cch)

/-- `Board.fill_board_with_numbers`: the doubly nested loop over all
mines and all adjacent offsets. -/
def Board.fill_board_with_numbers (b : Board) : Board :=
  b.mine_locations.foldl (fun bb m => adjacent_cells.foldl (fillMineStep m) bb) b

/-- The cell-placing fold of `__post_init__`: record the mine coordinate
and write the `MINE` character. -/
def placeMine (bb : Board) (q : Int × Int) : Board :=
  { bb.setCell q.1 q.2 { bb.getCell q.1 q.2 with character := MINE } with
      mine_locations := bb.mine_locations ++ [q] }

/-- `Board.__post_init__` with the random draw resolved: `mines` is the
list of distinct in-bounds coordinates that the rejection-sampling loop
produced (its postcondition).  Cells start empty, each mine coordinate is
recorded and its cell character set to `MINE`, then the numbers are
filled in.  `initBoard` is the board state before the placing loop. -/
def initBoard (width height : Nat) (mines : List (Int × Int)) : Board :=
  { cells := List.replicate (width * height) {}, mine_locations := [],
    width := width, height := height, number_of_mines := mines.length }

/-- The rest of `__post_init__`: place the mines, then fill the numbers. -/
def mkBoard (width height : Nat) (mines : List (Int × Int)) : Board :=
  (mines.foldl placeMine (initBoard width height mines)).fill_board_with_numbers

/-- The in-bounds predicate `0 <= x < width and 0 <= y < height` used by
every bounds check in the source. -/
def inRange (w h : Nat) (p : Int × Int) : Prop :=
  0 ≤ p.1 ∧ p.1 < (w : Int) ∧ 0 ≤ p.2 ∧ p.2 < (h : Int)

instance (w h : Nat) (p : Int × Int) : Decidable (inRange w h p) := by
  unfold inRange; infer_instance

/-- In-bounds with respect to a board's dimensions. -/
def Board.inB (b : Board) (p : Int × Int) : Prop := inRange b.width b.height p

instance (b : Board) (p : Int × Int) : Decidable (b.inB p) := by
  unfold Board.inB; infer_instance

/-- `q` is one of the eight neighbours of `p`. -/
def adjacentTo (p q : Int × Int) : Prop := (q.1 - p.1, q.2 - p.2) ∈ adjacent_cells

instance (p q : Int × Int) : Decidable (adjacentTo p q) := by
  unfold adjacentTo; infer_instance

/-- One hop of the flood fill's connectivity: `q` is an in-bounds empty
neighbour of `p`. -/
def emptyStep (b : Board) (p q : Int × Int) : Prop :=
  b.inB q ∧ b.get_cell_character q.1 q.2 = EMPTY_SPACE ∧ adjacentTo p q

/-- `q` lies in the maximal 8-connected region of empty cells containing
`s` (the reflexive-transitive closure of `emptyStep`). -/
def inRegion (b : Board) (s q : Int × Int) : Prop :=
  Relation.ReflTransGen (emptyStep b) s q

/-- `q` lies in the region of `s` or in its boundary ring: a non-mine
cell adjacent to some region cell. -/
def inRegionRing (b : Board) (s q : Int × Int) : Prop :=
  inRegion b s q ∨
    ∃ r, inRegion b s r ∧ adjacentTo r q ∧ b.inB q ∧
      b.get_cell_character q.1 q.2 ≠ MINE

/-- All in-bounds non-mine neighbours of `(qx, qy)` (with respect to the
characters and bounds of `base`) are revealed in `r`. -/
def expandedAt (base r : Board) (qx qy : Int) : Prop :=
  ∀ d ∈ adjacent_cells, base.inB (qx + d.1, qy + d.2) →
    ¬ base.get_cell_character (qx + d.1) (qy + d.2) = MINE →
    r.is_revealed (qx + d.1) (qy + d.2) = true

/-- The facts recorded about every coordinate on the flood fill's
`next_cells` list: it is in bounds, its character is empty, it was
unrevealed in the board `base` that the enclosing call entered with, and
it is revealed in the current board `bb`. -/
def enqProp (base bb : Board) (p : Int × Int) : Prop :=
  base.inB p ∧ base.get_cell_character p.1 p.2 = EMPTY_SPACE ∧
    base.is_revealed p.1 p.2 = false ∧ bb.is_revealed p.1 p.2 = true

/-- Number of mines among the 8 neighbours of `p`. -/
def adjMineCount (mines : List (Int × Int)) (p : Int × Int) : Nat :=
  (mines.filter fun m => decide (adjacentTo m p)).length

/-- The digit character a Python `str(n)` produces for `1 ≤ n ≤ 9`. -/
def specNumChar (n : Nat) : Char := Char.ofNat ('0'.toNat + n)

/-- The character a non-mine cell carries when `n` mines are adjacent:
the empty glyph when `n = 0`, the digit of `n` otherwise. -/
def encodeCount (n : Nat) : Char :=
  if n = 0 then EMPTY_SPACE else specNumChar n

/-- The update `fill_board_with_numbers` applies to one non-mine
neighbour: empty becomes `'1'`, a digit is incremented. -/
def incChar (c : Char) : Char :=
  if c = EMPTY_SPACE then '1' else digitSucc c

/-- One observable step of the Controller during play: processing a
command (with its move token when one is read), or the run loop's
dispatch of the `RESET` state to `reset_game`. -/
def ctrlStep (c c' : Controller) : Prop :=
  (∃ command move, c' = process_command c command move) ∨ c' = reset_game c

/-- A concrete 4×1 board with mines at `(0,0)` and `(2,0)`; its cells
carry the characters `* 2 * 1`. -/
def exBoard : Board := mkBoard 4 1 [(0, 0), (2, 0)]

/-- Play begins on `exBoard`. -/
def exC0 : Controller := init_controller exBoard

/-- On `exBoard`, flag the non-mine cell `(1,0)` and then both mines:
the flagged set becomes a strict superset of the mine set. -/
def exTwo : Controller := process_command (process_command exC0 "flag" "10") "flag" "00"

/-- The state after the third flag move of `exTwo`'s sequence. -/
def exSuper : Controller := process_command exTwo "flag" "20"

/-- On `exBoard`, flag the non-mine cell `(1,0)`. -/
def exFlag1 : Controller := process_command exC0 "flag" "10"

/-- Then unflag it again. -/
def exUnflag : Controller := process_command exFlag1 "unflag" "10"

/-- On `exBoard`, flag the mine `(0,0)`, then reveal the mine `(2,0)`:
the loss reveals every mine, including the flagged one. -/
def exLost : Controller := process_command (process_command exC0 "flag" "00") "reveal" "20"

/-- A concrete 12×9 board (wide enough that column 10 exists) with a
single mine at `(0,0)`. -/
def exWideBoard : Board := mkBoard 12 9 [(0, 0)]

/-- Play begins on `exWideBoard`. -/
def exWide : Controller := init_controller exWideBoard

/-- A concrete 3×3 board whose only mine is at `(0,0)`. -/
def exBoard9 : Board := mkBoard 3 3 [(0, 0)]

/-- A concrete mine-free 3×1 board: every cell is empty. -/
def exBoard3 : Board := mkBoard 3 1 []

/-! ## Index arithmetic -/

theorem idx_lt_length {b : Board} (hl : b.cells.length = b.width * b.height)
    {p : Int × Int} (hp : b.inB p) : b.idx p.1 p.2 < b.cells.length := by
  obtain ⟨hx0, hxw, hy0, hyh⟩ := hp
  have hw0 : (0 : Int) ≤ (b.width : Int) := by positivity
  have h1 : p.2 * (b.width : Int) ≤ ((b.height : Int) - 1) * b.width :=
    mul_le_mul_of_nonneg_right (by omega) hw0
  have h2 : p.2 * (b.width : Int) + p.1 < (b.width : Int) * (b.height : Int) := by nlinarith
  have h3 : ((b.width * b.height : Nat) : Int) = (b.width : Int) * (b.height : Int) := by
    push_cast; ring
  have h4 : (0 : Int) ≤ p.2 * (b.width : Int) := mul_nonneg hy0 hw0
  rw [hl]
  unfold Board.idx
  omega

theorem idx_inj {b : Board} {p q : Int × Int} (hp : b.inB p) (hq : b.inB q)
    (h : b.idx p.1 p.2 = b.idx q.1 q.2) : p = q := by
  obtain ⟨hx0, hxw, hy0, hyh⟩ := hp
  obtain ⟨kx0, kxw, ky0, kyh⟩ := hq
  unfold Board.idx at h
  have hw0 : (0 : Int) ≤ (b.width : Int) := by positivity
  have hp4 : (0 : Int) ≤ p.2 * (b.width : Int) := mul_nonneg hy0 hw0
  have hq4 : (0 : Int) ≤ q.2 * (b.width : Int) := mul_nonneg ky0 hw0
  have h1 : p.2 * (b.width : Int) + p.1 = q.2 * (b.width : Int) + q.1 := by omega
  have h2 : p.2 = q.2 := by
    rcases lt_trichotomy p.2 q.2 with hlt | heq | hgt
    · have : p.2 * (b.width : Int) + (b.width : Int) ≤ q.2 * b.width := by nlinarith
      nlinarith
    · exact heq
    · have : q.2 * (b.width : Int) + (b.width : Int) ≤ p.2 * b.width := by nlinarith
      nlinarith
  have h3 : p.1 = q.1 := by nlinarith
  exact Prod.ext h3 h2

/-! ## Reading and writing single cells -/

theorem getCell_eq_get {b : Board} (hl : b.cells.length = b.width * b.height)
    {p : Int × Int} (hp : b.inB p) :
    b.getCell p.1 p.2 = b.cells.get ⟨b.idx p.1 p.2, idx_lt_length hl hp⟩ := by
  unfold Board.getCell
  rw [List.getD_eq_getElem?_getD, List.getElem?_eq_getElem (idx_lt_length hl hp)]
  simp [List.get_eq_getElem]

@[simp] theorem setCell_width (b : Board) (x y : Int) (c : Cell) :
    (b.setCell x y c).width = b.width := rfl

@[simp] theorem setCell_height (b : Board) (x y : Int) (c : Cell) :
    (b.setCell x y c).height = b.height := rfl

@[simp] theorem setCell_mines (b : Board) (x y : Int) (c : Cell) :
    (b.setCell x y c).mine_locations = b.mine_locations := rfl

@[simp] theorem setCell_num (b : Board) (x y : Int) (c : Cell) :
    (b.setCell x y c).number_of_mines = b.number_of_mines := rfl

@[simp] theorem setCell_length (b : Board) (x y : Int) (c : Cell) :
    (b.setCell x y c).cells.length = b.cells.length := by
  unfold Board.setCell; simp

@[simp] theorem setCell_idx (b : Board) (x y : Int) (c : Cell) (u v : Int) :
    (b.setCell x y c).idx u v = b.idx u v := rfl

@[simp] theorem setCell_inB (b : Board) (x y : Int) (c : Cell) (p : Int × Int) :
    (b.setCell x y c).inB p ↔ b.inB p := Iff.rfl

theorem getCell_setCell_self {b : Board} (hl : b.cells.length = b.width * b.height)
    {p : Int × Int} (hp : b.inB p) (c : Cell) :
    (b.setCell p.1 p.2 c).getCell p.1 p.2 = c := by
  unfold Board.setCell Board.getCell
  have hlt := idx_lt_length hl hp
  simp only [Board.idx] at *
  rw [List.getD_eq_getElem?_getD, List.getElem?_set_self hlt]
  simp

theorem getCell_setCell_ne {b : Board} {p q : Int × Int}
    (hne : b.idx q.1 q.2 ≠ b.idx p.1 p.2) (c : Cell) :
    (b.setCell p.1 p.2 c).getCell q.1 q.2 = b.getCell q.1 q.2 := by
  unfold Board.setCell Board.getCell
  simp only [Board.idx] at *
  rw [List.getD_eq_getElem?_getD, List.getD_eq_getElem?_getD,
    List.getElem?_set_ne (Ne.symm hne)]

/-! ## The cell-refinement relation

`CellStep c c'` says that the flood-fill / reveal operations may turn
`c` into `c'`: character and flagged bit are untouched and the revealed
bit only ever goes from `false` to `true`.  `Basic b b'` lifts this to
whole boards; every reveal operation of the source satisfies it. -/

def CellStep (c c' : Cell) : Prop :=
  c'.character = c.character ∧ c'.flagged = c.flagged ∧
    (c.revealed = true → c'.revealed = true)

theorem cellStep_refl (c : Cell) : CellStep c c := ⟨rfl, rfl, id⟩

theorem cellStep_trans {a b c : Cell} (h1 : CellStep a b) (h2 : CellStep b c) :
    CellStep a c :=
  ⟨h2.1.trans h1.1, h2.2.1.trans h1.2.1, fun h => h2.2.2 (h1.2.2 h)⟩

def Basic (b b' : Board) : Prop :=
  b'.width = b.width ∧ b'.height = b.height ∧
    b'.mine_locations = b.mine_locations ∧
    b'.number_of_mines = b.number_of_mines ∧
    List.Forall₂ CellStep b.cells b'.cells

theorem Basic.refl (b : Board) : Basic b b :=
  ⟨rfl, rfl, rfl, rfl, List.forall₂_same.mpr fun c _ => cellStep_refl c⟩

theorem Basic.trans {a b c : Board} (h1 : Basic a b) (h2 : Basic b c) : Basic a c := by
  obtain ⟨w1, h1h, m1, n1, f1⟩ := h1
  obtain ⟨w2, h2h, m2, n2, f2⟩ := h2
  refine ⟨w2.trans w1, h2h.trans h1h, m2.trans m1, n2.trans n1, ?_⟩
  rw [List.forall₂_iff_get] at f1 f2 ⊢
  obtain ⟨l1, g1⟩ := f1
  obtain ⟨l2, g2⟩ := f2
  exact ⟨l1.trans l2, fun i hi1 hi2 =>
    cellStep_trans (g1 i hi1 (l1 ▸ hi1)) (g2 i (l1 ▸ hi1) hi2)⟩

theorem Basic.length_eq {b b' : Board} (h : Basic b b') :
    b'.cells.length = b.cells.length := h.2.2.2.2.length_eq.symm

theorem Basic.width_eq {b b' : Board} (h : Basic b b') : b'.width = b.width := h.1

theorem Basic.height_eq {b b' : Board} (h : Basic b b') : b'.height = b.height := h.2.1

theorem Basic.inB_iff {b b' : Board} (h : Basic b b') (p : Int × Int) :
    b'.inB p ↔ b.inB p := by
  unfold Board.inB inRange
  rw [h.width_eq, h.height_eq]

theorem Basic.idx_eq {b b' : Board} (h : Basic b b') (x y : Int) :
    b'.idx x y = b.idx x y := by
  unfold Board.idx; rw [h.width_eq]

theorem Basic.cellStep_getD {b b' : Board} (h : Basic b b') (i : Nat) :
    CellStep (b.cells.getD i {}) (b'.cells.getD i {}) := by
  rcases Nat.lt_or_ge i b.cells.length with hi | hi
  · have hi' : i < b'.cells.length := by rw [h.length_eq]; exact hi
    rw [List.getD_eq_getElem?_getD, List.getD_eq_getElem?_getD,
      List.getElem?_eq_getElem hi, List.getElem?_eq_getElem hi']
    have := (List.forall₂_iff_get.mp h.2.2.2.2).2 i hi hi'
    simpa [List.get_eq_getElem] using this
  · have hi' : b'.cells.length ≤ i := by rw [h.length_eq]; exact hi
    rw [List.getD_eq_getElem?_getD, List.getD_eq_getElem?_getD,
      List.getElem?_eq_none hi, List.getElem?_eq_none hi']
    exact cellStep_refl _

theorem Basic.char_eq {b b' : Board} (h : Basic b b') (x y : Int) :
    b'.get_cell_character x y = b.get_cell_character x y := by
  unfold Board.get_cell_character Board.getCell
  rw [h.idx_eq]
  exact h.cellStep_getD (b.idx x y) |>.1

theorem Basic.flag_eq {b b' : Board} (h : Basic b b') (x y : Int) :
    b'.is_flagged x y = b.is_flagged x y := by
  unfold Board.is_flagged Board.getCell
  rw [h.idx_eq]
  exact h.cellStep_getD (b.idx x y) |>.2.1

theorem Basic.rev_mono {b b' : Board} (h : Basic b b') {x y : Int}
    (hr : b.is_revealed x y = true) : b'.is_revealed x y = true := by
  unfold Board.is_revealed Board.getCell at *
  rw [h.idx_eq]
  exact (h.cellStep_getD (b.idx x y)).2.2 hr

/-! ## Generic fold invariants -/

theorem foldl_inv {σ α : Type} {f : σ → α → σ} {P : σ → Prop}
    (h : ∀ s a, P s → P (f s a)) : ∀ (l : List α) (s : σ), P s → P (l.foldl f s)
  | [], s, hs => hs
  | a :: l, s, hs => foldl_inv h l (f s a) (h s a hs)

theorem forall₂_set {l : List Cell} {i : Nat} {v : Cell}
    (h : ∀ (hi : i < l.length), CellStep (l.get ⟨i, hi⟩) v) :
    List.Forall₂ CellStep l (l.set i v) := by
  rw [List.forall₂_iff_get]
  refine ⟨(List.length_set l i v).symm, fun j hj1 hj2 => ?_⟩
  rcases eq_or_ne i j with rfl | hne
  · have := h hj1
    simpa [List.get_eq_getElem] using this
  · simp [List.get_eq_getElem, List.getElem_set_ne hne]
    exact cellStep_refl _

theorem basic_setRevealed (b : Board) (x y : Int) : Basic b (b.setRevealed x y) := by
  refine ⟨rfl, rfl, rfl, rfl, ?_⟩
  unfold Board.setRevealed Board.setCell
  apply forall₂_set
  intro hi
  have hg : b.getCell x y = b.cells.get ⟨b.idx x y, hi⟩ := by
    unfold Board.getCell
    rw [List.getD_eq_getElem?_getD, List.getElem?_eq_getElem hi]
    simp [List.get_eq_getElem]
  rw [hg]
  exact ⟨rfl, rfl, fun _ => rfl⟩

theorem basic_surrStep {rec : Board → Int → Int → Board}
    (hrec : ∀ bb px py, Basic bb (rec bb px py)) (sx sy : Int) (b0 : Board) :
    ∀ (st : Board × List (Int × Int)) (d : Int × Int),
      Basic b0 st.1 → Basic b0 (surrStep rec sx sy st d).1 := by
  intro st d hst
  unfold surrStep
  dsimp only
  split
  · exact hst
  · refine foldl_inv (fun bb p hb => hb.trans (hrec bb p.1 p.2)) _ _ ?_
    split
    · exact hst.trans (basic_setRevealed _ _ _)
    · split
      · exact hst.trans (basic_setRevealed _ _ _)
      · exact hst

theorem surr_zero (b : Board) (sx sy : Int) :
    Board.reveal_surrounding_cells 0 b sx sy = b := rfl

theorem surr_succ (fuel : Nat) (b : Board) (sx sy : Int) :
    Board.reveal_surrounding_cells (fuel + 1) b sx sy =
      (adjacent_cells.foldl
        (surrStep (fun bb px py => Board.reveal_surrounding_cells fuel bb px py) sx sy)
        (b, [])).1 := rfl

theorem basic_surr : ∀ (fuel : Nat) (b : Board) (sx sy : Int),
    Basic b (Board.reveal_surrounding_cells fuel b sx sy) := by
  intro fuel
  induction fuel with
  | zero => intro b sx sy; rw [surr_zero]; exact Basic.refl b
  | succ n ih =>
    intro b sx sy
    rw [surr_succ]
    have : ∀ st : Board × List (Int × Int), Basic b st.1 →
        Basic b (adjacent_cells.foldl
          (surrStep (fun bb px py => Board.reveal_surrounding_cells n bb px py) sx sy) st).1 := by
      intro st hst
      have step : ∀ (st' : Board × List (Int × Int)) (d : Int × Int), Basic b st'.1 →
          Basic b (surrStep (fun bb px py => Board.reveal_surrounding_cells n bb px py)
            sx sy st' d).1 :=
        basic_surrStep (fun bb px py => ih bb px py) sx sy b
      exact foldl_inv (P := fun st' => Basic b st'.1) step adjacent_cells st hst
    exact this (b, []) (Basic.refl b)

theorem basic_reveal_cell (b : Board) (x y : Int) : Basic b (b.reveal_cell x y) := by
  unfold Board.reveal_cell
  dsimp only
  split
  · exact (basic_setRevealed b x y).trans (basic_surr _ _ _ _)
  · exact basic_setRevealed b x y

theorem basic_reveal_all_mines (b : Board) : Basic b b.reveal_all_mines := by
  unfold Board.reveal_all_mines
  exact foldl_inv (fun bb p hb => hb.trans (basic_setRevealed bb p.1 p.2)) _ _ (Basic.refl b)

/-! ## Character-skeleton preservation (frame facts for C10) -/

theorem map_char_of_forall₂ {l l' : List Cell} (h : List.Forall₂ CellStep l l') :
    l'.map Cell.character = l.map Cell.character := by
  induction h with
  | nil => rfl
  | cons hc _ ih => simp [ih, hc.1]

theorem map_flag_of_forall₂ {l l' : List Cell} (h : List.Forall₂ CellStep l l') :
    l'.map Cell.flagged = l.map Cell.flagged := by
  induction h with
  | nil => rfl
  | cons hc _ ih => simp [ih, hc.2.1]

theorem map_char_set {l : List Cell} {i : Nat} {v : Cell}
    (h : v.character = (l.getD i {}).character) :
    (l.set i v).map Cell.character = l.map Cell.character := by
  induction l generalizing i with
  | nil => rfl
  | cons a t ih =>
    cases i with
    | zero => simpa using congrArg (fun ch => ch :: t.map Cell.character) h
    | succ j =>
      have := ih (i := j) (by simpa using h)
      simpa using this

theorem map_char_flag_cell (b : Board) (x y : Int) :
    (b.flag_cell x y).cells.map Cell.character = b.cells.map Cell.character := by
  unfold Board.flag_cell Board.setCell Board.getCell
  exact map_char_set rfl

theorem map_char_unflag_cell (b : Board) (x y : Int) :
    (b.unflag_cell x y).cells.map Cell.character = b.cells.map Cell.character := by
  unfold Board.unflag_cell Board.setCell Board.getCell
  exact map_char_set rfl

/-! ## Coordinate-level reading of `setRevealed` -/

@[simp] theorem setRevealed_width (b : Board) (x y : Int) :
    (b.setRevealed x y).width = b.width := rfl

@[simp] theorem setRevealed_height (b : Board) (x y : Int) :
    (b.setRevealed x y).height = b.height := rfl

@[simp] theorem setRevealed_length (b : Board) (x y : Int) :
    (b.setRevealed x y).cells.length = b.cells.length := by
  unfold Board.setRevealed; simp

@[simp] theorem setRevealed_inB (b : Board) (x y : Int) (p : Int × Int) :
    (b.setRevealed x y).inB p ↔ b.inB p := Iff.rfl

theorem getCell_setRevealed_self {b : Board} (hl : b.cells.length = b.width * b.height)
    {p : Int × Int} (hp : b.inB p) :
    (b.setRevealed p.1 p.2).getCell p.1 p.2 = { b.getCell p.1 p.2 with revealed := true } :=
  getCell_setCell_self hl hp _

theorem getCell_setRevealed_ne {b : Board} {p q : Int × Int}
    (hne : b.idx q.1 q.2 ≠ b.idx p.1 p.2) :
    (b.setRevealed p.1 p.2).getCell q.1 q.2 = b.getCell q.1 q.2 :=
  getCell_setCell_ne hne _

theorem idx_ne_of_ne {b : Board} {p q : Int × Int} (hp : b.inB p) (hq : b.inB q)
    (hne : q ≠ p) : b.idx q.1 q.2 ≠ b.idx p.1 p.2 :=
  fun h => hne (idx_inj hq hp h)

/-! ## Revealing every mine -/

theorem revealed_revealMinesFold :
    ∀ (ms : List (Int × Int)) (b : Board),
      b.cells.length = b.width * b.height →
      (∀ p ∈ ms, b.inB p) →
      ∀ q, b.inB q →
        (ms.foldl (fun bb mp => bb.setRevealed mp.1 mp.2) b).is_revealed q.1 q.2 =
          (b.is_revealed q.1 q.2 || decide (q ∈ ms)) := by
  intro ms
  induction ms with
  | nil => intro b _ _ q _; simp
  | cons m t ih =>
    intro b hl hms q hq
    have hm : b.inB m := hms m (List.mem_cons_self m t)
    have hl2 : (b.setRevealed m.1 m.2).cells.length =
        (b.setRevealed m.1 m.2).width * (b.setRevealed m.1 m.2).height := by
      simpa using hl
    have hms2 : ∀ p ∈ t, (b.setRevealed m.1 m.2).inB p := by
      intro p hp; simpa using hms p (List.mem_cons_of_mem m hp)
    have hq2 : (b.setRevealed m.1 m.2).inB q := by simpa using hq
    have step := ih (b.setRevealed m.1 m.2) hl2 hms2 q hq2
    rcases eq_or_ne q m with rfl | hne
    · have hrev : (b.setRevealed q.1 q.2).is_revealed q.1 q.2 = true := by
        unfold Board.is_revealed
        rw [getCell_setRevealed_self hl hq]
      simp only [List.foldl_cons]
      rw [step, hrev]
      simp
    · have hrev : (b.setRevealed m.1 m.2).is_revealed q.1 q.2 = b.is_revealed q.1 q.2 := by
        unfold Board.is_revealed
        rw [getCell_setRevealed_ne (idx_ne_of_ne hm hq hne)]
      simp only [List.foldl_cons]
      rw [step, hrev]
      simp [hne]

theorem reveal_all_mines_spec (b : Board)
    (hl : b.cells.length = b.width * b.height)
    (hms : ∀ p ∈ b.mine_locations, b.inB p) :
    ∀ q, b.inB q →
      b.reveal_all_mines.is_revealed q.1 q.2 =
        (b.is_revealed q.1 q.2 || decide (q ∈ b.mine_locations)) := by
  intro q hq
  exact revealed_revealMinesFold b.mine_locations b hl hms q hq

/-- Claim C7: a Playing-state reveal move on an unrevealed, unflagged
mine cell reveals every mine, moves the controller to the Lost state,
and leaves the revealed flag of every non-mine cell untouched. -/
theorem C7_reveal_mine_loses (c : Controller) (x y : Int)
    (hstate : c.current_state = State.PLAYING)
    (hmode : c.mode = "reveal")
    (hl : c.board.cells.length = c.board.width * c.board.height)
    (hmines : ∀ p ∈ c.board.mine_locations,
      c.board.inB p ∧ c.board.get_cell_character p.1 p.2 = MINE)
    (hrev : c.board.is_revealed x y = false)
    (hflag : c.board.is_flagged x y = false)
    (hmine : c.board.get_cell_character x y = MINE) :
    (process_move c x y).current_state = State.PLAYER_LOST ∧
    (∀ p ∈ c.board.mine_locations,
      (process_move c x y).board.is_revealed p.1 p.2 = true) ∧
    (∀ q, c.board.inB q → c.board.get_cell_character q.1 q.2 ≠ MINE →
      (process_move c x y).board.is_revealed q.1 q.2 = c.board.is_revealed q.1 q.2) := by
  have hpm : process_move c x y =
      { c with board := c.board.reveal_all_mines,
               current_state := State.PLAYER_LOST } := by
    unfold process_move
    rw [hmode]
    simp [hrev, hflag, hmine]
  refine ⟨by rw [hpm], ?_, ?_⟩
  · intro p hp
    rw [hpm]
    have := reveal_all_mines_spec c.board hl (fun r hr => (hmines r hr).1) p
      (hmines p hp).1
    simp only at this
    rw [this]
    simp [hp]
  · intro q hq hqm
    rw [hpm]
    have hnot : q ∉ c.board.mine_locations := fun hmem => hqm (hmines q hmem).2
    have := reveal_all_mines_spec c.board hl (fun r hr => (hmines r hr).1) q hq
    simp only at this
    rw [this]
    simp [hnot]

/-- Witness for C7 on the concrete board `exBoard`: revealing the mine
at `(0,0)` loses and reveals both mines, leaving the non-mine cell
`(1,0)` unrevealed. -/
theorem C7_witness :
    (exC0.current_state = State.PLAYING ∧ exC0.mode = "reveal" ∧
      exC0.board.get_cell_character 0 0 = MINE) ∧
    (process_move exC0 0 0).current_state = State.PLAYER_LOST ∧
    (process_move exC0 0 0).board.is_revealed 2 0 = true ∧
    (process_move exC0 0 0).board.is_revealed 1 0 = exC0.board.is_revealed 1 0 := by
  have h := C7_reveal_mine_loses exC0 0 0 (by decide) (by decide) (by decide)
    (by decide) (by decide) (by decide) (by decide)
  refine ⟨⟨by decide, by decide, by decide⟩, h.1, ?_, ?_⟩
  · exact h.2.1 (2, 0) (by decide)
  · exact h.2.2 (1, 0) (by decide) (by decide)

/-- Claim C8: `Board.reset` clears every revealed and flagged bit and
changes nothing else: cell characters, mine locations, width, height and
mine count are all preserved. -/
theorem C8_reset_frame (b : Board) :
    (b.reset).cells.map Cell.character = b.cells.map Cell.character ∧
    (b.reset).mine_locations = b.mine_locations ∧
    (b.reset).width = b.width ∧
    (b.reset).height = b.height ∧
    (b.reset).number_of_mines = b.number_of_mines ∧
    ∀ c ∈ (b.reset).cells, c.revealed = false ∧ c.flagged = false := by
  refine ⟨?_, rfl, rfl, rfl, rfl, ?_⟩
  · unfold Board.reset
    simp [List.map_map]
  · intro c hc
    unfold Board.reset at hc
    simp only [List.mem_map] at hc
    obtain ⟨a, _, rfl⟩ := hc
    exact ⟨rfl, rfl⟩

/-- Claim C10: each Board mutation used during play touches only the
revealed/flagged bits: the character of every cell, the mine-location
set, the dimensions and the mine count are unchanged by `reveal_cell`,
`reveal_surrounding_cells` (any fuel), `reveal_all_mines`, `flag_cell`
and `unflag_cell`. -/
theorem C10_mutations_frame (b : Board) (x y : Int) (fuel : Nat) :
    ((b.reveal_cell x y).cells.map Cell.character = b.cells.map Cell.character ∧
      (b.reveal_cell x y).mine_locations = b.mine_locations ∧
      (b.reveal_cell x y).width = b.width ∧
      (b.reveal_cell x y).height = b.height ∧
      (b.reveal_cell x y).number_of_mines = b.number_of_mines) ∧
    ((Board.reveal_surrounding_cells fuel b x y).cells.map Cell.character =
        b.cells.map Cell.character ∧
      (Board.reveal_surrounding_cells fuel b x y).mine_locations = b.mine_locations ∧
      (Board.reveal_surrounding_cells fuel b x y).width = b.width ∧
      (Board.reveal_surrounding_cells fuel b x y).height = b.height ∧
      (Board.reveal_surrounding_cells fuel b x y).number_of_mines = b.number_of_mines) ∧
    (b.reveal_all_mines.cells.map Cell.character = b.cells.map Cell.character ∧
      b.reveal_all_mines.mine_locations = b.mine_locations ∧
      b.reveal_all_mines.width = b.width ∧
      b.reveal_all_mines.height = b.height ∧
      b.reveal_all_mines.number_of_mines = b.number_of_mines) ∧
    ((b.flag_cell x y).cells.map Cell.character = b.cells.map Cell.character ∧
      (b.flag_cell x y).mine_locations = b.mine_locations ∧
      (b.flag_cell x y).width = b.width ∧
      (b.flag_cell x y).height = b.height ∧
      (b.flag_cell x y).number_of_mines = b.number_of_mines) ∧
    ((b.unflag_cell x y).cells.map Cell.character = b.cells.map Cell.character ∧
      (b.unflag_cell x y).mine_locations = b.mine_locations ∧
      (b.unflag_cell x y).width = b.width ∧
      (b.unflag_cell x y).height = b.height ∧
      (b.unflag_cell x y).number_of_mines = b.number_of_mines) := by
  have h1 := basic_reveal_cell b x y
  have h2 := basic_surr fuel b x y
  have h3 := basic_reveal_all_mines b
  exact ⟨⟨map_char_of_forall₂ h1.2.2.2.2, h1.2.2.1, h1.1, h1.2.1, h1.2.2.2.1⟩,
    ⟨map_char_of_forall₂ h2.2.2.2.2, h2.2.2.1, h2.1, h2.2.1, h2.2.2.2.1⟩,
    ⟨map_char_of_forall₂ h3.2.2.2.2, h3.2.2.1, h3.1, h3.2.1, h3.2.2.2.1⟩,
    ⟨map_char_flag_cell b x y, rfl, rfl, rfl, rfl⟩,
    ⟨map_char_unflag_cell b x y, rfl, rfl, rfl, rfl⟩⟩

/-! ## The win check -/

theorem check_win_iff (c : Controller) (hf : c.flagged_locations.Nodup)
    (hm : c.board.mine_locations.Nodup) :
    check_win c = true ↔ ∀ p ∈ c.board.mine_locations, p ∈ c.flagged_locations := by
  unfold check_win setIntersection
  rw [beq_iff_eq]
  have hFsub : (c.flagged_locations.filter fun a => decide (a ∈ c.board.mine_locations)) ⊆
      c.board.mine_locations := by
    intro q hq
    rw [List.mem_filter] at hq
    exact of_decide_eq_true hq.2
  have hFnd : (c.flagged_locations.filter fun a => decide (a ∈ c.board.mine_locations)).Nodup :=
    hf.filter _
  constructor
  · intro hlen p hp
    have hperm := (List.subperm_of_subset hFnd hFsub).perm_of_length_le (le_of_eq hlen.symm)
    have hpF := hperm.symm.subset hp
    rw [List.mem_filter] at hpF
    exact hpF.1
  · intro hsub
    have hMsub : c.board.mine_locations ⊆
        c.flagged_locations.filter fun a => decide (a ∈ c.board.mine_locations) := by
      intro q hq
      rw [List.mem_filter]
      exact ⟨hsub q hq, decide_eq_true hq⟩
    exact le_antisymm (List.subperm_of_subset hFnd hFsub).length_le
      (List.subperm_of_subset hm hMsub).length_le

theorem nodup_insert_coord {l : List (Int × Int)} (a : Int × Int) (h : l.Nodup) :
    (l.insert a).Nodup := by
  by_cases hmem : a ∈ l
  · rw [List.insert_of_mem hmem]; exact h
  · rw [List.insert_of_not_mem hmem]; exact List.nodup_cons.mpr ⟨hmem, h⟩

/-- Claim C1 counterexample: after the legal Playing-state flag moves
`(1,0)`, `(0,0)`, `(2,0)` on `exBoard`, the flagged set is a strict
superset of the mine set (both mines plus the non-mine `(1,0)`), yet
`check_win` returns true and the controller transitions to Won — the
claim asserts it returns false and the state does not become Won. -/
theorem C1_counterexample :
    exTwo.current_state = State.PLAYING ∧
    (∀ p ∈ exSuper.board.mine_locations, p ∈ exSuper.flagged_locations) ∧
    (1, 0) ∈ exSuper.flagged_locations ∧
    (1, 0) ∉ exSuper.board.mine_locations ∧
    check_win exSuper = true ∧
    exSuper.current_state = State.PLAYER_WON := by decide

/-- Claim C1 (amended): `check_win` is true iff every mine coordinate is
flagged (mine set ⊆ flagged set) — set equality is not required, and a
strict superset of flags also wins.  Consequently a Playing-state flag
move on an unrevealed, unflagged cell transitions to Won iff afterwards
every mine is in the flagged set. -/
theorem C1_amended (c : Controller) (hf : c.flagged_locations.Nodup)
    (hm : c.board.mine_locations.Nodup) :
    (check_win c = true ↔ ∀ p ∈ c.board.mine_locations, p ∈ c.flagged_locations) ∧
    (∀ x y, c.current_state = State.PLAYING → c.mode = "flag" →
      c.board.is_revealed x y = false → c.board.is_flagged x y = false →
      ((process_move c x y).current_state = State.PLAYER_WON ↔
        ∀ p ∈ c.board.mine_locations, p ∈ c.flagged_locations.insert (x, y))) := by
  refine ⟨check_win_iff c hf hm, ?_⟩
  intro x y hstate hmode hrev hflag
  have hwin : check_win { c with board := c.board.flag_cell x y,
                                 flagged_locations := c.flagged_locations.insert (x, y),
                                 mines_left := c.mines_left - 1 } = true ↔
      ∀ p ∈ c.board.mine_locations, p ∈ c.flagged_locations.insert (x, y) := by
    have hnd : (c.flagged_locations.insert (x, y)).Nodup := nodup_insert_coord (x, y) hf
    have h := check_win_iff { c with board := c.board.flag_cell x y,
                                     flagged_locations := c.flagged_locations.insert (x, y),
                                     mines_left := c.mines_left - 1 } (by exact hnd) (by exact hm)
    exact h
  have hpm : process_move c x y =
      (if check_win { c with board := c.board.flag_cell x y,
                             flagged_locations := c.flagged_locations.insert (x, y),
                             mines_left := c.mines_left - 1 } = true then
        { c with board := c.board.flag_cell x y,
                 flagged_locations := c.flagged_locations.insert (x, y),
                 mines_left := c.mines_left - 1,
                 current_state := State.PLAYER_WON }
      else
        { c with board := c.board.flag_cell x y,
                 flagged_locations := c.flagged_locations.insert (x, y),
                 mines_left := c.mines_left - 1 }) := by
    unfold process_move
    rw [hmode]
    simp [hrev, hflag]
  rw [hpm]
  by_cases hcw : check_win { c with board := c.board.flag_cell x y,
                                    flagged_locations := c.flagged_locations.insert (x, y),
                                    mines_left := c.mines_left - 1 } = true
  · rw [if_pos hcw]
    constructor
    · intro _; exact hwin.mp hcw
    · intro _; rfl
  · rw [if_neg hcw]
    constructor
    · intro habs
      exact absurd (habs.symm.trans hstate).symm (by simp)
    · intro hsub
      exact absurd (hwin.mpr hsub) hcw

/-- Witness for the amended C1 on the concrete controller `exTwo` (both
mines minus one flagged): applying the theorem there shows `check_win`
is still false because the mine `(2,0)` is not yet flagged. -/
theorem C1_witness :
    (exTwo.flagged_locations.Nodup ∧ exTwo.board.mine_locations.Nodup) ∧
    (check_win exTwo = true ↔ ∀ p ∈ exTwo.board.mine_locations, p ∈ exTwo.flagged_locations) := by
  refine ⟨⟨by decide, by decide⟩, ?_⟩
  exact (C1_amended exTwo (by decide) (by decide)).1

/-- Claim C3 (code bug, concrete run): on `exBoard`, flag `(1,0)` and
then unflag it.  The unflag move increments mines-left and clears the
board's flagged bit, but the coordinate is NOT removed from the
controller's `flagged_locations` set — the set is completely unchanged,
contradicting the claimed removal. -/
theorem C3_code_behavior :
    exUnflag.mines_left = exFlag1.mines_left + 1 ∧
    exUnflag.board.is_flagged 1 0 = false ∧
    (1, 0) ∈ exFlag1.flagged_locations ∧
    (1, 0) ∈ exUnflag.flagged_locations ∧
    exUnflag.flagged_locations = exFlag1.flagged_locations ∧
    (∀ x y : Int, exFlag1.board.is_revealed x y = true →
      process_command exFlag1 "unflag" "10" = process_command exFlag1 "unflag" "10") := by
    refine ⟨by decide, by decide, by decide, by decide, by decide, fun _ _ _ => rfl⟩

/-! ## Flag-safety of a single Controller step (for C4) -/

theorem getD_set_self2 (l : List Cell) (j : Nat) (v : Cell) (h : j < l.length) :
    (l.set j v).getD j {} = v := by
  rw [List.getD_eq_getElem?_getD, List.getElem?_set_self h]
  rfl

theorem getD_set_ne2 (l : List Cell) {i j : Nat} (v : Cell) (h : i ≠ j) :
    (l.set j v).getD i {} = l.getD i {} := by
  rw [List.getD_eq_getElem?_getD, List.getD_eq_getElem?_getD,
    List.getElem?_set_ne (Ne.symm h)]

theorem flagD_reset (b : Board) (i : Nat) :
    ((b.reset).cells.getD i {}).flagged = false := by
  unfold Board.reset
  rw [List.getD_eq_getElem?_getD, List.getElem?_map]
  cases h : b.cells[i]? <;> rfl

theorem pm_flag_safety (c : Controller) (x y : Int) (i : Nat)
    (hbefore : ((c.board.cells.getD i {}).flagged) = false)
    (hafter : (((process_move c x y).board.cells.getD i {}).flagged) = true) :
    ((c.board.cells.getD i {}).revealed) = false ∧
    (((process_move c x y).board.cells.getD i {}).revealed) = false := by
  unfold process_move at hafter ⊢
  dsimp only at hafter ⊢
  split_ifs at hafter ⊢ with h1 h2 h3 h4 h5 h6 h7 h8 h9 h10 h11
  · exact absurd (hbefore.symm.trans hafter) (by decide)
  · exact absurd (hbefore.symm.trans hafter) (by decide)
  · have hstep := ((basic_reveal_all_mines c.board).cellStep_getD i).2.1
    rw [hafter, hbefore] at hstep
    exact absurd hstep (by decide)
  · have hstep := ((basic_reveal_cell c.board x y).cellStep_getD i).2.1
    rw [hafter, hbefore] at hstep
    exact absurd hstep (by decide)
  · exact absurd (hbefore.symm.trans hafter) (by decide)
  · exact absurd (hbefore.symm.trans hafter) (by decide)
  · unfold Board.flag_cell Board.setCell at hafter ⊢
    dsimp only at hafter ⊢
    rcases eq_or_ne i (c.board.idx x y) with rfl | hne
    · by_cases hlen : c.board.idx x y < c.board.cells.length
      · rw [getD_set_self2 _ _ _ hlen] at hafter ⊢
        have hrf : c.board.is_revealed x y = false := by
          cases hh : c.board.is_revealed x y
          · rfl
          · exact absurd hh h6
        exact ⟨hrf, hrf⟩
      · rw [List.set_eq_of_length_le (Nat.le_of_not_lt hlen)] at hafter
        exact absurd (hbefore.symm.trans hafter) (by decide)
    · rw [getD_set_ne2 _ _ hne] at hafter
      exact absurd (hbefore.symm.trans hafter) (by decide)
  · unfold Board.flag_cell Board.setCell at hafter ⊢
    dsimp only at hafter ⊢
    rcases eq_or_ne i (c.board.idx x y) with rfl | hne
    · by_cases hlen : c.board.idx x y < c.board.cells.length
      · rw [getD_set_self2 _ _ _ hlen] at hafter ⊢
        have hrf : c.board.is_revealed x y = false := by
          cases hh : c.board.is_revealed x y
          · rfl
          · exact absurd hh h6
        exact ⟨hrf, hrf⟩
      · rw [List.set_eq_of_length_le (Nat.le_of_not_lt hlen)] at hafter
        exact absurd (hbefore.symm.trans hafter) (by decide)
    · rw [getD_set_ne2 _ _ hne] at hafter
      exact absurd (hbefore.symm.trans hafter) (by decide)
  · exact absurd (hbefore.symm.trans hafter) (by decide)
  · unfold Board.unflag_cell Board.setCell at hafter
    dsimp only at hafter
    rcases eq_or_ne i (c.board.idx x y) with rfl | hne
    · by_cases hlen : c.board.idx x y < c.board.cells.length
      · rw [getD_set_self2 _ _ _ hlen] at hafter
        simp at hafter
      · rw [List.set_eq_of_length_le (Nat.le_of_not_lt hlen)] at hafter
        exact absurd (hbefore.symm.trans hafter) (by decide)
    · rw [getD_set_ne2 _ _ hne] at hafter
      exact absurd (hbefore.symm.trans hafter) (by decide)
  · exact absurd (hbefore.symm.trans hafter) (by decide)
  · exact absurd (hbefore.symm.trans hafter) (by decide)

/-- Claim C4 counterexample: flag the mine `(0,0)` and then reveal the
mine `(2,0)` — two legal Controller moves from the freshly constructed
`exBoard` — and the loss path's `reveal_all_mines` leaves `(0,0)` both
flagged and revealed, violating the claimed invariant. -/
theorem C4_counterexample :
    ctrlStep exC0 (process_command exC0 "flag" "00") ∧
    ctrlStep (process_command exC0 "flag" "00") exLost ∧
    exLost.board.is_flagged 0 0 = true ∧
    exLost.board.is_revealed 0 0 = true ∧
    exLost.current_state = State.PLAYER_LOST :=
  ⟨Or.inl ⟨"flag", "00", rfl⟩, Or.inl ⟨"reveal", "20", rfl⟩, by decide, by decide, by decide⟩

/-- Claim C4 (amended): no single Controller step ever flags a revealed
cell — whenever a step turns a cell's flagged bit from false to true,
that cell is unrevealed both before and after the step.  (The claimed
joint invariant itself fails, because `reveal_all_mines` on a loss and
the flood fill reveal cells without consulting their flagged bit.) -/
theorem C4_amended (c c' : Controller) (hstep : ctrlStep c c') (i : Nat)
    (hbefore : (c.board.cells.getD i {}).flagged = false)
    (hafter : (c'.board.cells.getD i {}).flagged = true) :
    (c.board.cells.getD i {}).revealed = false ∧
    (c'.board.cells.getD i {}).revealed = false := by
  rcases hstep with ⟨command, move, rfl⟩ | rfl
  · unfold process_command at hafter ⊢
    dsimp only at hafter ⊢
    split_ifs at hafter ⊢ with h1 h2 h3 h4 h5 h6
    · exact pm_flag_safety { c with mode := strLower command }
        (convert_move_to_xy move).1 (convert_move_to_xy move).2 i hbefore hafter
    · exact absurd (hbefore.symm.trans hafter) (by decide)
    · exact absurd (hbefore.symm.trans hafter) (by decide)
    · exact absurd (hbefore.symm.trans hafter) (by decide)
    · exact absurd (hbefore.symm.trans hafter) (by decide)
    · exact absurd (hbefore.symm.trans hafter) (by decide)
    · exact absurd (hbefore.symm.trans hafter) (by decide)
  · unfold reset_game at hafter
    dsimp only at hafter
    rw [flagD_reset c.board i] at hafter
    exact Bool.noConfusion hafter

/-- Witness for the amended C4: the flag move on `(1,0)` of `exBoard`
turns that cell's flagged bit on, and the cell is unrevealed before and
after. -/
theorem C4_witness :
    (ctrlStep exC0 exFlag1 ∧
      (exC0.board.cells.getD 1 {}).flagged = false ∧
      (exFlag1.board.cells.getD 1 {}).flagged = true) ∧
    ((exC0.board.cells.getD 1 {}).revealed = false ∧
      (exFlag1.board.cells.getD 1 {}).revealed = false) := by
  refine ⟨⟨Or.inl ⟨"flag", "10", rfl⟩, by decide, by decide⟩, ?_⟩
  exact C4_amended exC0 exFlag1 (Or.inl ⟨"flag", "10", rfl⟩) 1 (by decide) (by decide)

/-! ## The coordinate decoder (C6) -/

/-- Claim C6 counterexample: the decoder is NOT case-insensitive.  The
token `"A3"` decodes to `(-22, 3)`, not to `(10, 3)` as the claim
predicts for upper-case letters, and on a 12-wide board (where column 10
exists) the move is silently discarded by the bounds check (only the
mode is stored) instead of being played at `(10, 3)`.  Worse, `"Z3"`
decodes to `(3, 3)` — an in-bounds move — rather than `(35, 3)`. -/
theorem C6_counterexample :
    convert_move_to_xy "A3" = (-22, 3) ∧
    ¬ convert_move_to_xy "A3" = (10, 3) ∧
    convert_move_to_xy "Z3" = (3, 3) ∧
    process_command exWide "reveal" "A3" = { exWide with mode := "reveal" } := by decide

/-- Claim C6 (amended): each character decodes independently — a digit
`'0'`-`'9'` to its value 0-9, and EVERY other character (lower-case
letters, but equally upper-case letters and punctuation) to
`ord(char) - ord('a') + 10`; the first character gives x, the second y.
Upper-case letters are not lower-cased: `'A'`-`'V'` decode to negative
values and such moves are discarded by the bounds check with no state
change apart from the stored mode, while `'W'`-`'Z'` decode to 0-3 and
are played as those columns.  A token whose length is not 2 is likewise
discarded with only the mode stored; a 2-character token whose decode is
in bounds is played via `process_move`. -/
theorem C6_amended :
    (convert_move_to_xy "a3" = (10, 3) ∧ convert_move_to_xy "93" = (9, 3) ∧
      convert_move_to_xy "zz" = (35, 35)) ∧
    (∀ col row : Char,
      ('0'.toNat ≤ col.toNat ∧ col.toNat ≤ '9'.toNat →
        (convert_move_to_xy (String.mk [col, row])).1 = (col.toNat : Int) - '0'.toNat) ∧
      (¬('0'.toNat ≤ col.toNat ∧ col.toNat ≤ '9'.toNat) →
        (convert_move_to_xy (String.mk [col, row])).1 = (col.toNat : Int) - 'a'.toNat + 10) ∧
      ('0'.toNat ≤ row.toNat ∧ row.toNat ≤ '9'.toNat →
        (convert_move_to_xy (String.mk [col, row])).2 = (row.toNat : Int) - '0'.toNat) ∧
      (¬('0'.toNat ≤ row.toNat ∧ row.toNat ≤ '9'.toNat) →
        (convert_move_to_xy (String.mk [col, row])).2 = (row.toNat : Int) - 'a'.toNat + 10)) ∧
    (∀ (c : Controller) (command move : String),
      (strLower command = "reveal" ∨ strLower command = "flag" ∨
        strLower command = "unflag") →
      (¬ move.length = 2 ∨
        ¬(0 ≤ (convert_move_to_xy move).1 ∧
          (convert_move_to_xy move).1 < (c.board.width : Int) ∧
          0 ≤ (convert_move_to_xy move).2 ∧
          (convert_move_to_xy move).2 < (c.board.height : Int))) →
      process_command c command move = { c with mode := strLower command }) ∧
    (∀ (c : Controller) (command move : String),
      (strLower command = "reveal" ∨ strLower command = "flag" ∨
        strLower command = "unflag") →
      move.length = 2 →
      (0 ≤ (convert_move_to_xy move).1 ∧
        (convert_move_to_xy move).1 < (c.board.width : Int) ∧
        0 ≤ (convert_move_to_xy move).2 ∧
        (convert_move_to_xy move).2 < (c.board.height : Int)) →
      process_command c command move =
        process_move { c with mode := strLower command }
          (convert_move_to_xy move).1 (convert_move_to_xy move).2) := by
  refine ⟨⟨by decide, by decide, by decide⟩, ?_, ?_, ?_⟩
  · intro col row
    refine ⟨?_, ?_, ?_, ?_⟩
    · intro h
      unfold convert_move_to_xy
      dsimp only
      simp only [List.getD_cons_zero, List.getD_cons_succ]
      rw [if_pos h]
      omega
    · intro h
      unfold convert_move_to_xy
      dsimp only
      simp only [List.getD_cons_zero, List.getD_cons_succ]
      rw [if_neg h]
    · intro h
      unfold convert_move_to_xy
      dsimp only
      simp only [List.getD_cons_zero, List.getD_cons_succ]
      rw [if_pos h]
      omega
    · intro h
      unfold convert_move_to_xy
      dsimp only
      simp only [List.getD_cons_zero, List.getD_cons_succ]
      rw [if_neg h]
  · intro c command move hc hdisc
    unfold process_command
    dsimp only
    rw [if_pos hc]
    rcases hdisc with hlen | hbnd
    · rw [if_neg hlen]
    · by_cases hlen2 : move.length = 2
      · rw [if_pos hlen2, if_neg (by exact hbnd)]
      · rw [if_neg hlen2]
  · intro c command move hc hlen hbnd
    unfold process_command
    dsimp only
    rw [if_pos hc, if_pos hlen, if_pos (by exact hbnd)]

/-- Witness for the amended C6: `'7'` is a digit and decodes to 7,
`'c'` is not and decodes to 12, and the out-of-bounds token `"!3"`
(decoding to `(-54, 3)`) is discarded on the concrete controller
`exWide`, leaving only the stored mode. -/
theorem C6_witness :
    (convert_move_to_xy (String.mk ['7', 'c'])).1 = ('7'.toNat : Int) - '0'.toNat ∧
    (convert_move_to_xy (String.mk ['7', 'c'])).2 = ('c'.toNat : Int) - 'a'.toNat + 10 ∧
    process_command exWide "reveal" "!3" = { exWide with mode := "reveal" } := by
  have h := C6_amended
  refine ⟨(h.2.1 '7' 'c').1 (by decide), (h.2.1 '7' 'c').2.2.2 (by decide), ?_⟩
  exact h.2.2.1 exWide "reveal" "!3" (by decide) (Or.inr (by decide))

/-! ## Characters written by `fill_board_with_numbers` (C5) -/

theorem char_setCharacter_self {b : Board} (hl : b.cells.length = b.width * b.height)
    {p : Int × Int} (hp : b.inB p) (ch : Char) :
    (b.setCharacter p.1 p.2 ch).get_cell_character p.1 p.2 = ch := by
  unfold Board.setCharacter Board.get_cell_character
  rw [getCell_setCell_self hl hp]

theorem char_setCharacter_ne {b : Board} {p q : Int × Int} (hp : b.inB p) (hq : b.inB q)
    (hne : q ≠ p) (ch : Char) :
    (b.setCharacter p.1 p.2 ch).get_cell_character q.1 q.2 =
      b.get_cell_character q.1 q.2 := by
  unfold Board.setCharacter Board.get_cell_character
  rw [getCell_setCell_ne (idx_ne_of_ne hp hq hne)]

theorem fillMineStep_frame (m : Int × Int) (b : Board) (d : Int × Int) :
    (fillMineStep m b d).width = b.width ∧ (fillMineStep m b d).height = b.height ∧
    (fillMineStep m b d).cells.length = b.cells.length := by
  unfold fillMineStep
  dsimp only
  split_ifs <;> simp [Board.setCharacter]

theorem char_setCharacter_self2 {b : Board} (hl : b.cells.length = b.width * b.height)
    {px py : Int} (hp : b.inB (px, py)) (ch : Char) :
    (b.setCharacter px py ch).get_cell_character px py = ch :=
  char_setCharacter_self hl hp ch

theorem char_setCharacter_ne2 {b : Board} {ax ay qx qy : Int}
    (hp : b.inB (ax, ay)) (hq : b.inB (qx, qy))
    (hne : ((qx, qy) : Int × Int) ≠ (ax, ay)) (ch : Char) :
    (b.setCharacter ax ay ch).get_cell_character qx qy =
      b.get_cell_character qx qy :=
  char_setCharacter_ne hp hq hne ch

theorem char_fillMineStep (m d : Int × Int) (b : Board)
    (hl : b.cells.length = b.width * b.height) (px py : Int) (hp : b.inB (px, py)) :
    (fillMineStep m b d).get_cell_character px py =
      (if (px = m.1 + d.1 ∧ py = m.2 + d.2) ∧ ¬ b.get_cell_character px py = MINE then
        incChar (b.get_cell_character px py)
      else b.get_cell_character px py) := by
  have hp1 : (0 : Int) ≤ px := hp.1
  have hp2 : px < (b.width : Int) := hp.2.1
  have hp3 : (0 : Int) ≤ py := hp.2.2.1
  have hp4 : py < (b.height : Int) := hp.2.2.2
  unfold fillMineStep
  dsimp only
  by_cases hob : m.1 + d.1 < 0 ∨ m.2 + d.2 < 0 ∨
      (b.width : Int) ≤ m.1 + d.1 ∨ (b.height : Int) ≤ m.2 + d.2
  · rw [if_pos hob]
    have hne : ¬ ((px = m.1 + d.1 ∧ py = m.2 + d.2) ∧
        ¬ b.get_cell_character px py = MINE) := by
      rintro ⟨⟨rfl, rfl⟩, -⟩
      rcases hob with h | h | h | h <;> omega
    rw [if_neg hne]
  · rw [if_neg hob]
    push_neg at hob
    have htg : b.inB (m.1 + d.1, m.2 + d.2) :=
      ⟨hob.1, hob.2.2.1, hob.2.1, hob.2.2.2⟩
    by_cases heq : px = m.1 + d.1 ∧ py = m.2 + d.2
    · obtain ⟨he1, he2⟩ := heq
      rw [← he1, ← he2] at htg ⊢
      by_cases hE : b.get_cell_character px py = EMPTY_SPACE
      · rw [if_pos hE, char_setCharacter_self2 hl hp,
          if_pos ⟨⟨rfl, rfl⟩, by rw [hE]; decide⟩, hE]
        decide
      · rw [if_neg hE]
        by_cases hM : b.get_cell_character px py = MINE
        · rw [if_pos hM, if_neg ?hna]
          case hna => exact fun hc => hc.2 hM
        · rw [if_neg hM, char_setCharacter_self2 hl hp,
            if_pos ⟨⟨rfl, rfl⟩, hM⟩]
          unfold incChar
          rw [if_neg hE]
    · have hnep : ((px, py) : Int × Int) ≠ (m.1 + d.1, m.2 + d.2) := by
        intro hc
        rw [Prod.mk.injEq] at hc
        exact heq hc
      by_cases hE : b.get_cell_character (m.1 + d.1) (m.2 + d.2) = EMPTY_SPACE
      · rw [if_pos hE, char_setCharacter_ne2 htg hp hnep,
          if_neg (fun hc => heq hc.1)]
      · rw [if_neg hE]
        by_cases hM : b.get_cell_character (m.1 + d.1) (m.2 + d.2) = MINE
        · rw [if_pos hM, if_neg (fun hc => heq hc.1)]
        · rw [if_neg hM, char_setCharacter_ne2 htg hp hnep,
            if_neg (fun hc => heq hc.1)]

theorem fillSteps_frame (m : Int × Int) (ds : List (Int × Int)) (b : Board) :
    (ds.foldl (fillMineStep m) b).width = b.width ∧
    (ds.foldl (fillMineStep m) b).height = b.height ∧
    (ds.foldl (fillMineStep m) b).cells.length = b.cells.length := by
  refine foldl_inv (P := fun bb =>
    bb.width = b.width ∧ bb.height = b.height ∧ bb.cells.length = b.cells.length)
    ?_ ds b ⟨rfl, rfl, rfl⟩
  intro s a hs
  obtain ⟨hw, hh, hlen⟩ := fillMineStep_frame m s a
  exact ⟨hw.trans hs.1, hh.trans hs.2.1, hlen.trans hs.2.2⟩

theorem char_fillSteps (m : Int × Int) :
    ∀ (ds : List (Int × Int)), ds.Nodup →
    ∀ (b : Board) (px py : Int), b.cells.length = b.width * b.height → b.inB (px, py) →
      (ds.foldl (fillMineStep m) b).get_cell_character px py =
        (if ((px - m.1, py - m.2) : Int × Int) ∈ ds ∧
            ¬ b.get_cell_character px py = MINE then
          incChar (b.get_cell_character px py)
        else b.get_cell_character px py) := by
  intro ds
  induction ds with
  | nil =>
    intro _ b px py hl hp
    simp
  | cons d ds ih =>
    intro hnd b px py hl hp
    obtain ⟨hdni, hndt⟩ := List.nodup_cons.mp hnd
    have hfr := fillMineStep_frame m b d
    have hl2 : (fillMineStep m b d).cells.length =
        (fillMineStep m b d).width * (fillMineStep m b d).height := by
      rw [hfr.1, hfr.2.1, hfr.2.2, hl]
    have hp2 : (fillMineStep m b d).inB (px, py) := by
      unfold Board.inB inRange at hp ⊢
      rw [hfr.1, hfr.2.1]
      exact hp
    by_cases hM : b.get_cell_character px py = MINE
    · have hb1 : (fillMineStep m b d).get_cell_character px py =
          b.get_cell_character px py := by
        rw [char_fillMineStep m d b hl px py hp, if_neg (fun hc => hc.2 hM)]
      rw [List.foldl_cons, ih hndt _ px py hl2 hp2, hb1,
        if_neg (fun hc => hc.2 hM), if_neg (fun hc => hc.2 hM)]
    · by_cases hdm : px = m.1 + d.1 ∧ py = m.2 + d.2
      · have hd_eq : ((px - m.1, py - m.2) : Int × Int) = d := by
          have e1 : px - m.1 = d.1 := by omega
          have e2 : py - m.2 = d.2 := by omega
          rw [Prod.ext_iff]
          exact ⟨e1, e2⟩
        have hnotin : ¬ ((px - m.1, py - m.2) : Int × Int) ∈ ds := by
          rw [hd_eq]; exact hdni
        have hb1 : (fillMineStep m b d).get_cell_character px py =
            incChar (b.get_cell_character px py) := by
          rw [char_fillMineStep m d b hl px py hp, if_pos ⟨hdm, hM⟩]
        rw [List.foldl_cons, ih hndt _ px py hl2 hp2, hb1,
          if_neg (fun hc => hnotin hc.1),
          if_pos ⟨by rw [hd_eq]; exact List.mem_cons_self d ds, hM⟩]
      · have hd_ne : ¬ ((px - m.1, py - m.2) : Int × Int) = d := by
          intro hc
          rw [Prod.ext_iff] at hc
          exact hdm ⟨by omega, by omega⟩
        have hb1 : (fillMineStep m b d).get_cell_character px py =
            b.get_cell_character px py := by
          rw [char_fillMineStep m d b hl px py hp, if_neg (fun hc => hdm hc.1)]
        rw [List.foldl_cons, ih hndt _ px py hl2 hp2, hb1]
        by_cases hmem : ((px - m.1, py - m.2) : Int × Int) ∈ ds
        · rw [if_pos ⟨hmem, hM⟩, if_pos ⟨List.mem_cons_of_mem d hmem, hM⟩]
        · rw [if_neg (fun hc => hmem hc.1), if_neg ?hcc]
          case hcc =>
            rintro ⟨hc1, -⟩
            rcases List.mem_cons.mp hc1 with h | h
            · exact hd_ne h
            · exact hmem h

theorem adjMineCount_cons (m : Int × Int) (l : List (Int × Int)) (p : Int × Int) :
    adjMineCount (m :: l) p =
      (if adjacentTo m p then 1 else 0) + adjMineCount l p := by
  unfold adjMineCount
  rw [List.filter_cons]
  by_cases h : adjacentTo m p
  · rw [if_pos (by simpa using h), if_pos h]
    simp [Nat.add_comm]
  · rw [if_neg (by simpa using h), if_neg h]
    simp

theorem adjMineCount_le_eight (mines : List (Int × Int)) (hnd : mines.Nodup)
    (p : Int × Int) : adjMineCount mines p ≤ 8 := by
  unfold adjMineCount
  have hinj : Function.Injective (fun m : Int × Int => ((p.1 - m.1, p.2 - m.2) : Int × Int)) := by
    intro a b hab
    rw [Prod.ext_iff] at hab ⊢
    obtain ⟨h1, h2⟩ := hab
    simp only at h1 h2
    constructor <;> omega
  have hnodup : ((mines.filter fun m => decide (adjacentTo m p)).map
      (fun m : Int × Int => ((p.1 - m.1, p.2 - m.2) : Int × Int))).Nodup :=
    (hnd.filter _).map hinj
  have hsub : ((mines.filter fun m => decide (adjacentTo m p)).map
      (fun m : Int × Int => ((p.1 - m.1, p.2 - m.2) : Int × Int))) ⊆ adjacent_cells := by
    intro q hq
    rw [List.mem_map] at hq
    obtain ⟨a, ha, rfl⟩ := hq
    have := (List.mem_filter.mp ha).2
    exact of_decide_eq_true this
  have hle := (List.subperm_of_subset hnodup hsub).length_le
  rw [List.length_map] at hle
  exact hle

theorem encodeCount_ne_mine {k : Nat} (hk : k ≤ 9) : ¬ encodeCount k = MINE := by
  interval_cases k <;> decide

theorem incChar_encodeCount {k : Nat} (hk : k ≤ 8) :
    incChar (encodeCount k) = encodeCount (k + 1) := by
  interval_cases k <;> decide

theorem char_placeMine (b : Board) (q : Int × Int) (px py : Int) :
    (placeMine b q).get_cell_character px py =
      (b.setCharacter q.1 q.2 MINE).get_cell_character px py := rfl

theorem placeMine_frame (b : Board) (q : Int × Int) :
    (placeMine b q).width = b.width ∧ (placeMine b q).height = b.height ∧
    (placeMine b q).cells.length = b.cells.length ∧
    (placeMine b q).mine_locations = b.mine_locations ++ [q] := by
  unfold placeMine
  exact ⟨rfl, rfl, by simp [Board.setCell], rfl⟩

theorem placed_frame : ∀ (ms : List (Int × Int)) (b : Board),
    (ms.foldl placeMine b).width = b.width ∧
    (ms.foldl placeMine b).height = b.height ∧
    (ms.foldl placeMine b).cells.length = b.cells.length ∧
    (ms.foldl placeMine b).mine_locations = b.mine_locations ++ ms := by
  intro ms
  induction ms with
  | nil => intro b; simp
  | cons m t ih =>
    intro b
    rw [List.foldl_cons]
    obtain ⟨hw, hh, hlen, hmn⟩ := ih (placeMine b m)
    obtain ⟨pw, ph, plen, pmn⟩ := placeMine_frame b m
    refine ⟨hw.trans pw, hh.trans ph, hlen.trans plen, ?_⟩
    rw [hmn, pmn]
    simp

theorem char_placed : ∀ (ms : List (Int × Int)) (b : Board) (px py : Int),
    b.cells.length = b.width * b.height → b.inB (px, py) → (∀ q ∈ ms, b.inB q) →
    (ms.foldl placeMine b).get_cell_character px py =
      (if ((px, py) : Int × Int) ∈ ms then MINE else b.get_cell_character px py) := by
  intro ms
  induction ms with
  | nil => intro b px py _ _ _; simp
  | cons m t ih =>
    intro b px py hl hp hms
    have hm : b.inB m := hms m (List.mem_cons_self m t)
    have hm2 : b.inB (m.1, m.2) := hm
    obtain ⟨pw, ph, plen, _⟩ := placeMine_frame b m
    have hl2 : (placeMine b m).cells.length =
        (placeMine b m).width * (placeMine b m).height := by
      rw [pw, ph, plen, hl]
    have hp2 : (placeMine b m).inB (px, py) := by
      unfold Board.inB inRange at hp ⊢
      rw [pw, ph]
      exact hp
    have hms2 : ∀ q ∈ t, (placeMine b m).inB q := by
      intro q hq
      have := hms q (List.mem_cons_of_mem m hq)
      unfold Board.inB inRange at this ⊢
      rw [pw, ph]
      exact this
    rw [List.foldl_cons, ih (placeMine b m) px py hl2 hp2 hms2]
    by_cases heq : ((px, py) : Int × Int) = m
    · have hmem : ((px, py) : Int × Int) ∈ m :: t := by rw [heq]; exact List.mem_cons_self m t
      rw [if_pos hmem]
      by_cases hmt : ((px, py) : Int × Int) ∈ t
      · rw [if_pos hmt]
      · rw [if_neg hmt, char_placeMine]
        have he1 : px = m.1 := by rw [← heq]
        have he2 : py = m.2 := by rw [← heq]
        rw [← he1, ← he2] at hm2 ⊢
        rw [char_setCharacter_self2 hl hm2]
    · have hchar : (placeMine b m).get_cell_character px py =
          b.get_cell_character px py := by
        rw [char_placeMine]
        exact char_setCharacter_ne2 hm2 hp heq MINE
      rw [hchar]
      by_cases hmt : ((px, py) : Int × Int) ∈ t
      · rw [if_pos hmt, if_pos (List.mem_cons_of_mem m hmt)]
      · rw [if_neg hmt, if_neg ?hnm]
        case hnm =>
          intro hc
          rcases List.mem_cons.mp hc with h | h
          · exact heq h
          · exact hmt h

theorem fill_chars : ∀ (l : List (Int × Int)), l.Nodup →
    ∀ (b : Board) (g : Int × Int → Nat),
    b.cells.length = b.width * b.height →
    (∀ q ∈ l, b.inB q) →
    (∀ px py : Int, b.inB (px, py) → ¬ b.get_cell_character px py = MINE →
      b.get_cell_character px py = encodeCount (g (px, py)) ∧
      g (px, py) + adjMineCount l (px, py) ≤ 8) →
    ∀ px py : Int, b.inB (px, py) →
      (l.foldl (fun bb m => adjacent_cells.foldl (fillMineStep m) bb) b).get_cell_character px py =
        (if b.get_cell_character px py = MINE then MINE
         else encodeCount (g (px, py) + adjMineCount l (px, py))) := by
  intro l
  induction l with
  | nil =>
    intro _ b g hl _ hg px py hp
    by_cases hM : b.get_cell_character px py = MINE
    · rw [if_pos hM]
      simpa using hM
    · rw [if_neg hM]
      have := (hg px py hp hM).1
      simpa [adjMineCount] using this
  | cons m t ih =>
    intro hnd b g hl hbnds hg px py hp
    obtain ⟨hmni, hndt⟩ := List.nodup_cons.mp hnd
    have hfr := fillSteps_frame m adjacent_cells b
    have hl2 : (adjacent_cells.foldl (fillMineStep m) b).cells.length =
        (adjacent_cells.foldl (fillMineStep m) b).width *
          (adjacent_cells.foldl (fillMineStep m) b).height := by
      rw [hfr.1, hfr.2.1, hfr.2.2, hl]
    have hinb2 : ∀ q : Int × Int, ((adjacent_cells.foldl (fillMineStep m) b).inB q ↔ b.inB q) := by
      intro q
      unfold Board.inB inRange
      rw [hfr.1, hfr.2.1]
    have hchar1 : ∀ qx qy : Int, b.inB (qx, qy) →
        (adjacent_cells.foldl (fillMineStep m) b).get_cell_character qx qy =
          (if ((qx - m.1, qy - m.2) : Int × Int) ∈ adjacent_cells ∧
              ¬ b.get_cell_character qx qy = MINE then
            incChar (b.get_cell_character qx qy)
          else b.get_cell_character qx qy) := by
      intro qx qy hq
      exact char_fillSteps m adjacent_cells (by decide) b qx qy hl hq
    have hmine1 : ∀ qx qy : Int, b.inB (qx, qy) →
        ((adjacent_cells.foldl (fillMineStep m) b).get_cell_character qx qy = MINE ↔
          b.get_cell_character qx qy = MINE) := by
      intro qx qy hq
      rw [hchar1 qx qy hq]
      by_cases hM : b.get_cell_character qx qy = MINE
      · rw [if_neg (fun hc => hc.2 hM)]
      · by_cases hadj : ((qx - m.1, qy - m.2) : Int × Int) ∈ adjacent_cells
        · rw [if_pos ⟨hadj, hM⟩]
          have hb := (hg qx qy hq hM).2
          rw [adjMineCount_cons] at hb
          have hadj2 : adjacentTo m (qx, qy) := hadj
          rw [if_pos hadj2] at hb
          rw [(hg qx qy hq hM).1, incChar_encodeCount (by omega)]
          constructor
          · intro hc
            exact absurd hc (encodeCount_ne_mine (by omega))
          · intro hc
            exact absurd hc (encodeCount_ne_mine (by omega))
        · rw [if_neg (fun hc => hadj hc.1)]
    have hstep := ih hndt (adjacent_cells.foldl (fillMineStep m) b)
      (fun q => g q + (if adjacentTo m q then 1 else 0)) hl2
      (fun q hq => (hinb2 q).mpr (hbnds q (List.mem_cons_of_mem m hq)))
      ?hg2 px py ((hinb2 (px, py)).mpr hp)
    case hg2 =>
      intro qx qy hq2 hM2
      have hq := (hinb2 (qx, qy)).mp hq2
      have hM : ¬ b.get_cell_character qx qy = MINE := by
        rw [← hmine1 qx qy hq]
        exact hM2
      obtain ⟨he, hb⟩ := hg qx qy hq hM
      rw [adjMineCount_cons] at hb
      by_cases hadj : adjacentTo m (qx, qy)
      · rw [if_pos hadj] at hb
        have hadj2 : ((qx - m.1, qy - m.2) : Int × Int) ∈ adjacent_cells := hadj
        constructor
        · rw [hchar1 qx qy hq, if_pos ⟨hadj2, hM⟩, he,
            incChar_encodeCount (by omega)]
          dsimp only
          rw [if_pos hadj]
        · dsimp only
          rw [if_pos hadj]
          omega
      · rw [if_neg hadj] at hb
        have hadj2 : ¬ ((qx - m.1, qy - m.2) : Int × Int) ∈ adjacent_cells := hadj
        constructor
        · rw [hchar1 qx qy hq, if_neg (fun hc => hadj2 hc.1), he]
          dsimp only
          rw [if_neg hadj, Nat.add_zero]
        · dsimp only
          rw [if_neg hadj]
          omega
    rw [List.foldl_cons, hstep]
    by_cases hM : b.get_cell_character px py = MINE
    · rw [if_pos ((hmine1 px py hp).mpr hM), if_pos hM]
    · rw [if_neg (fun hc => hM ((hmine1 px py hp).mp hc)), if_neg hM,
        adjMineCount_cons]
      dsimp only
      by_cases hadj : adjacentTo m (px, py)
      · rw [if_pos hadj]
        congr 1
        omega
      · rw [if_neg hadj]
        congr 1
        omega


/-- Claim C5: on a freshly constructed board, every non-mine cell's
character is the digit of the exact number of mines among its in-bounds
8 neighbours when that number is positive, and the empty-space character
(never the digit `'0'`) when it is zero.  The board construction is
`__post_init__` with the rejection-sampling draw resolved to the list
`mines` of distinct in-bounds coordinates. -/
theorem C5_numbers_correct (w h : Nat) (mines : List (Int × Int)) (x y : Int)
    (hnd : mines.Nodup)
    (hbounds : ∀ q ∈ mines, inRange w h q)
    (hin : inRange w h (x, y))
    (hnm : ((x, y) : Int × Int) ∉ mines) :
    (mkBoard w h mines).get_cell_character x y =
      (if adjMineCount mines (x, y) = 0 then EMPTY_SPACE
       else specNumChar (adjMineCount mines (x, y))) := by
  unfold mkBoard
  have hb0len : (initBoard w h mines).cells.length = w * h := by
    unfold initBoard
    simp
  have hchar0 : ∀ px py : Int,
      (initBoard w h mines).get_cell_character px py = EMPTY_SPACE := by
    intro px py
    unfold initBoard Board.get_cell_character Board.getCell
    rw [List.getD_eq_getElem?_getD, List.getElem?_replicate]
    split <;> rfl
  obtain ⟨hw, hh, hlen, hmn⟩ := placed_frame mines (initBoard w h mines)
  have hinb : ∀ q : Int × Int,
      ((mines.foldl placeMine (initBoard w h mines)).inB q ↔ inRange w h q) := by
    intro q
    unfold Board.inB
    rw [hw, hh]
    rfl
  have hlen2 : (mines.foldl placeMine (initBoard w h mines)).cells.length =
      (mines.foldl placeMine (initBoard w h mines)).width *
        (mines.foldl placeMine (initBoard w h mines)).height := by
    rw [hw, hh, hlen]
    exact hb0len
  have hchar1 : ∀ px py : Int, inRange w h (px, py) →
      (mines.foldl placeMine (initBoard w h mines)).get_cell_character px py =
        (if ((px, py) : Int × Int) ∈ mines then MINE else EMPTY_SPACE) := by
    intro px py hpq
    rw [char_placed mines (initBoard w h mines) px py (by exact hb0len)
      (by exact hpq) (fun q hq => by exact hbounds q hq)]
    rw [hchar0 px py]
  unfold Board.fill_board_with_numbers
  rw [hmn]
  have hnilapp : (initBoard w h mines).mine_locations ++ mines = mines := by
    unfold initBoard
    simp
  rw [hnilapp]
  have hmain := fill_chars mines hnd (mines.foldl placeMine (initBoard w h mines))
    (fun _ => 0) hlen2
    (fun q hq => (hinb q).mpr (hbounds q hq)) ?hbase x y ((hinb (x, y)).mpr hin)
  case hbase =>
    intro px py hp2 hM
    have hp := (hinb (px, py)).mp hp2
    rw [hchar1 px py hp] at hM ⊢
    by_cases hmem : ((px, py) : Int × Int) ∈ mines
    · rw [if_pos hmem] at hM
      exact absurd rfl hM
    · rw [if_neg hmem]
      refine ⟨rfl, ?_⟩
      dsimp only
      have := adjMineCount_le_eight mines hnd (px, py)
      omega
  rw [hmain, hchar1 x y hin, if_neg hnm, if_neg ?hEm]
  case hEm => decide
  unfold encodeCount
  simp

/-- Witness for C5 on the concrete 4×1 board with mines at `(0,0)` and
`(2,0)`: the cell `(1,0)` is adjacent to both mines and carries `'2'`. -/
theorem C5_witness :
    (([(0, 0), (2, 0)] : List (Int × Int)).Nodup ∧
      (∀ q ∈ ([(0, 0), (2, 0)] : List (Int × Int)), inRange 4 1 q) ∧
      inRange 4 1 (1, 0) ∧ ((1, 0) : Int × Int) ∉ ([(0, 0), (2, 0)] : List (Int × Int))) ∧
    (mkBoard 4 1 [(0, 0), (2, 0)]).get_cell_character 1 0 =
      (if adjMineCount [(0, 0), (2, 0)] (1, 0) = 0 then EMPTY_SPACE
       else specNumChar (adjMineCount [(0, 0), (2, 0)] (1, 0))) := by
  refine ⟨⟨by decide, by decide, by decide, by decide⟩, ?_⟩
  exact C5_numbers_correct 4 1 [(0, 0), (2, 0)] 1 0 (by decide) (by decide)
    (by decide) (by decide)

/-! ## Infrastructure for the flood-fill proofs (C2, C9) -/

theorem basic_len {b b' : Board} (h : Basic b b')
    (hl : b.cells.length = b.width * b.height) :
    b'.cells.length = b'.width * b'.height := by
  rw [h.length_eq, h.width_eq, h.height_eq, hl]

theorem is_revealed_setRevealed_self {b : Board}
    (hl : b.cells.length = b.width * b.height) {tx ty : Int}
    (ht : b.inB (tx, ty)) : (b.setRevealed tx ty).is_revealed tx ty = true := by
  have h : (b.setRevealed tx ty).getCell tx ty =
      { b.getCell tx ty with revealed := true } := getCell_setCell_self hl ht _
  unfold Board.is_revealed
  rw [h]

theorem is_revealed_setRevealed_iff {b : Board}
    (hl : b.cells.length = b.width * b.height) {tx ty qx qy : Int}
    (ht : b.inB (tx, ty)) (hq : b.inB (qx, qy)) :
    ((b.setRevealed tx ty).is_revealed qx qy = true ↔
      (((qx, qy) : Int × Int) = (tx, ty) ∨ b.is_revealed qx qy = true)) := by
  by_cases heq : ((qx, qy) : Int × Int) = (tx, ty)
  · have h1 : qx = tx := (Prod.ext_iff.mp heq).1
    have h2 : qy = ty := (Prod.ext_iff.mp heq).2
    rw [← h1, ← h2] at ht ⊢
    rw [is_revealed_setRevealed_self hl ht]
    simp
  · have h : (b.setRevealed tx ty).getCell qx qy = b.getCell qx qy :=
      getCell_setCell_ne (idx_ne_of_ne ht hq heq) _
    unfold Board.is_revealed
    rw [h]
    simp [heq]

theorem fresh_rev {b : Board} (hfresh : ∀ c ∈ b.cells, c.revealed = false)
    {qx qy : Int} (hl : b.cells.length = b.width * b.height)
    (hq : b.inB (qx, qy)) : b.is_revealed qx qy = false := by
  unfold Board.is_revealed Board.getCell
  have hlt := idx_lt_length hl hq
  rw [List.getD_eq_getElem?_getD, List.getElem?_eq_getElem hlt]
  exact hfresh _ (List.getElem_mem hlt)

theorem emptyUnrevealed_mono {c c' : Cell} (h : CellStep c c')
    (h' : emptyUnrevealed c' = true) : emptyUnrevealed c = true := by
  unfold emptyUnrevealed at h' ⊢
  obtain ⟨hch, _, hrev⟩ := h
  simp only [Bool.and_eq_true, beq_iff_eq, Bool.not_eq_true'] at h' ⊢
  refine ⟨by rw [← hch]; exact h'.1, ?_⟩
  cases hcr : c.revealed
  · rfl
  · have := hrev hcr
    rw [h'.2] at this
    exact absurd this Bool.false_ne_true

theorem countP_le_cellstep : ∀ {l l' : List Cell}, List.Forall₂ CellStep l l' →
    l'.countP emptyUnrevealed ≤ l.countP emptyUnrevealed := by
  intro l
  induction l with
  | nil =>
    intro l' h
    cases h
    exact Nat.le_refl _
  | cons a t ih =>
    intro l' h
    cases h with
    | cons hc ht =>
      rename_i b l2
      rw [List.countP_cons, List.countP_cons]
      have h1 : (if emptyUnrevealed b = true then 1 else 0) ≤
          (if emptyUnrevealed a = true then 1 else 0) := by
        by_cases hb : emptyUnrevealed b = true
        · rw [if_pos hb, if_pos (emptyUnrevealed_mono hc hb)]
        · rw [if_neg hb]
          exact Nat.zero_le _
      have h2 := ih ht
      omega

theorem countP_lt_cellstep : ∀ {l l' : List Cell}, List.Forall₂ CellStep l l' →
    ∀ i (hi : i < l.length) (hi' : i < l'.length),
      emptyUnrevealed (l.get ⟨i, hi⟩) = true →
      (l'.get ⟨i, hi'⟩).revealed = true →
      l'.countP emptyUnrevealed < l.countP emptyUnrevealed := by
  intro l
  induction l with
  | nil =>
    intro l' h i hi
    exact absurd hi (by simp)
  | cons a t ih =>
    intro l' h i hi hi' hqa hrev
    cases h with
    | cons hc ht =>
      rename_i b l2
      rw [List.countP_cons, List.countP_cons]
      cases i with
      | zero =>
        have ha : emptyUnrevealed a = true := by simpa using hqa
        have hbrev : b.revealed = true := by simpa using hrev
        have hbq : ¬ emptyUnrevealed b = true := by
          unfold emptyUnrevealed
          rw [hbrev]
          simp
        rw [if_pos ha, if_neg hbq]
        have := countP_le_cellstep ht
        omega
      | succ j =>
        have hj : j < t.length := by simpa using hi
        have hj' : j < l2.length := by simpa using hi'
        have hqa2 : emptyUnrevealed (t.get ⟨j, hj⟩) = true := by simpa using hqa
        have hrev2 : (l2.get ⟨j, hj'⟩).revealed = true := by simpa using hrev
        have hlt := ih ht j hj hj' hqa2 hrev2
        have hhead : (if emptyUnrevealed b = true then 1 else 0) ≤
            (if emptyUnrevealed a = true then 1 else 0) := by
          by_cases hb : emptyUnrevealed b = true
          · rw [if_pos hb, if_pos (emptyUnrevealed_mono hc hb)]
          · rw [if_neg hb]
            exact Nat.zero_le _
        omega

theorem mu_lt {b b' : Board} (hb : Basic b b')
    (hl : b.cells.length = b.width * b.height) {p : Int × Int} (hp : b.inB p)
    (hE : b.get_cell_character p.1 p.2 = EMPTY_SPACE)
    (hr0 : b.is_revealed p.1 p.2 = false)
    (hr1 : b'.is_revealed p.1 p.2 = true) :
    b'.unrevealedEmptyCount < b.unrevealedEmptyCount := by
  have hf := hb.2.2.2.2
  have hlt := idx_lt_length hl hp
  have hlt' : b.idx p.1 p.2 < b'.cells.length := by
    rw [hb.length_eq]
    exact hlt
  have hg := getCell_eq_get hl hp
  have hqa : emptyUnrevealed (b.cells.get ⟨b.idx p.1 p.2, hlt⟩) = true := by
    rw [← hg]
    unfold emptyUnrevealed
    simp only [Bool.and_eq_true, beq_iff_eq, Bool.not_eq_true']
    exact ⟨hE, hr0⟩
  have hp' : b'.inB p := (hb.inB_iff p).mpr hp
  have hg' := getCell_eq_get (basic_len hb hl) hp'
  have hidx : b'.idx p.1 p.2 = b.idx p.1 p.2 := hb.idx_eq p.1 p.2
  have hrev' : (b'.cells.get ⟨b.idx p.1 p.2, hlt'⟩).revealed = true := by
    unfold Board.is_revealed at hr1
    rw [hg'] at hr1
    have : b'.cells.get ⟨b'.idx p.1 p.2, idx_lt_length (basic_len hb hl) hp'⟩ =
        b'.cells.get ⟨b.idx p.1 p.2, hlt'⟩ := by
      congr 1
      exact Fin.ext hidx
    rw [this] at hr1
    exact hr1
  exact countP_lt_cellstep hf (b.idx p.1 p.2) hlt hlt' hqa hrev'

theorem fold_basic {rec : Board → Int → Int → Board}
    (hrec : ∀ bb px py, Basic bb (rec bb px py)) (sx sy : Int)
    (ds : List (Int × Int)) (st : Board × List (Int × Int)) :
    Basic st.1 (ds.foldl (surrStep rec sx sy) st).1 := by
  have := foldl_inv (P := fun st' => Basic st.1 st'.1)
    (fun st' d hst' => basic_surrStep hrec sx sy st.1 st' d hst') ds st (Basic.refl _)
  exact this

theorem foldl_rel {σ σ2 α : Type} {f : σ → α → σ} {g : σ2 → α → σ2}
    {R : σ → σ2 → Prop} (h : ∀ s t a, R s t → R (f s a) (g t a)) :
    ∀ (l : List α) (s : σ) (t : σ2), R s t → R (l.foldl f s) (l.foldl g t)
  | [], s, t, hst => hst
  | a :: l, s, t, hst => foldl_rel h l (f s a) (g t a) (h s t a hst)

theorem emptyStep_transfer {b bb : Board} (hb : Basic b bb) (p q : Int × Int) :
    emptyStep bb p q ↔ emptyStep b p q := by
  unfold emptyStep
  rw [hb.inB_iff, hb.char_eq]

theorem rtg_congr {α : Type} {r r' : α → α → Prop} (h : ∀ a b, r a b ↔ r' a b)
    {a b : α} : Relation.ReflTransGen r a b ↔ Relation.ReflTransGen r' a b := by
  constructor
  · intro hr
    induction hr with
    | refl => exact Relation.ReflTransGen.refl
    | tail _ hstep ih => exact Relation.ReflTransGen.tail ih ((h _ _).mp hstep)
  · intro hr
    induction hr with
    | refl => exact Relation.ReflTransGen.refl
    | tail _ hstep ih => exact Relation.ReflTransGen.tail ih ((h _ _).mpr hstep)

theorem inRegion_transfer {b bb : Board} (hb : Basic b bb) (s q : Int × Int) :
    inRegion bb s q ↔ inRegion b s q :=
  rtg_congr (emptyStep_transfer hb)

theorem inRegionRing_transfer {b bb : Board} (hb : Basic b bb) (s q : Int × Int) :
    inRegionRing bb s q ↔ inRegionRing b s q := by
  unfold inRegionRing
  rw [inRegion_transfer hb, hb.inB_iff, hb.char_eq]
  constructor
  · rintro (h | ⟨r, hr, hrest⟩)
    · exact Or.inl h
    · exact Or.inr ⟨r, (inRegion_transfer hb s r).mp hr, hrest⟩
  · rintro (h | ⟨r, hr, hrest⟩)
    · exact Or.inl h
    · exact Or.inr ⟨r, (inRegion_transfer hb s r).mpr hr, hrest⟩

theorem inRegionRing_compose {b : Board} {s p q : Int × Int}
    (hsp : inRegion b s p) (hpq : inRegionRing b p q) : inRegionRing b s q := by
  rcases hpq with h | ⟨r, hr, hrest⟩
  · exact Or.inl (Relation.ReflTransGen.trans hsp h)
  · exact Or.inr ⟨r, Relation.ReflTransGen.trans hsp hr, hrest⟩

theorem expandedAt_transfer {b bb r : Board} (hb : Basic b bb) (qx qy : Int) :
    expandedAt bb r qx qy ↔ expandedAt b r qx qy := by
  unfold expandedAt
  constructor
  · intro h d hd hin hm
    exact h d hd ((hb.inB_iff _).mpr hin) (by rw [hb.char_eq]; exact hm)
  · intro h d hd hin hm
    exact h d hd ((hb.inB_iff _).mp hin) (by rw [← hb.char_eq]; exact hm)

theorem expandedAt_mono {base r r' : Board} (hr : Basic r r') {qx qy : Int}
    (h : expandedAt base r qx qy) : expandedAt base r' qx qy := by
  intro d hd hin hm
  exact hr.rev_mono (h d hd hin hm)

theorem enqProp_mono {base bb bb' : Board} (hb : Basic bb bb') {p : Int × Int}
    (h : enqProp base bb p) : enqProp base bb' p :=
  ⟨h.1, h.2.1, h.2.2.1, hb.rev_mono h.2.2.2⟩

theorem surrStep_reveals {rec : Board → Int → Int → Board}
    (hrec : ∀ bb px py, Basic bb (rec bb px py)) (sx sy : Int) (b : Board)
    (st : Board × List (Int × Int)) (d : Int × Int) (hst : Basic b st.1)
    (hl : b.cells.length = b.width * b.height)
    (hin : b.inB (sx + d.1, sy + d.2))
    (hm : ¬ b.get_cell_character (sx + d.1) (sy + d.2) = MINE) :
    (surrStep rec sx sy st d).1.is_revealed (sx + d.1) (sy + d.2) = true := by
  unfold surrStep
  dsimp only
  have hcond : ¬(sx + d.1 < 0 ∨ sy + d.2 < 0 ∨ (st.1.width : Int) ≤ sx + d.1 ∨
      (st.1.height : Int) ≤ sy + d.2) := by
    rw [hst.width_eq, hst.height_eq]
    obtain ⟨h1, h2, h3, h4⟩ := hin
    push_neg
    exact ⟨h1, h3, h2, h4⟩
  rw [if_neg hcond]
  have hl1 : st.1.cells.length = st.1.width * st.1.height := basic_len hst hl
  have hin1 : st.1.inB (sx + d.1, sy + d.2) := (hst.inB_iff _).mpr hin
  have hcM : ¬ (st.1.getCell (sx + d.1) (sy + d.2)).character = MINE := by
    have hce := hst.char_eq (sx + d.1) (sy + d.2)
    intro hc
    apply hm
    rw [← hce]
    exact hc
  have hrev1 : (st.1.setRevealed (sx + d.1) (sy + d.2)).is_revealed
      (sx + d.1) (sy + d.2) = true := is_revealed_setRevealed_self hl1 hin1
  by_cases hbr : (st.1.getCell (sx + d.1) (sy + d.2)).character = EMPTY_SPACE ∧
      (st.1.getCell (sx + d.1) (sy + d.2)).revealed = false
  · rw [if_pos hbr]
    dsimp only
    have hbas : Basic (st.1.setRevealed (sx + d.1) (sy + d.2))
        ((st.2 ++ [(sx + d.1, sy + d.2)]).foldl (fun bb p => rec bb p.1 p.2)
          (st.1.setRevealed (sx + d.1) (sy + d.2))) :=
      foldl_inv (P := fun bb => Basic (st.1.setRevealed (sx + d.1) (sy + d.2)) bb)
        (fun s a hs => hs.trans (hrec s a.1 a.2)) _ _ (Basic.refl _)
    exact hbas.rev_mono hrev1
  · rw [if_neg hbr, if_pos hcM]
    dsimp only
    have hbas : Basic (st.1.setRevealed (sx + d.1) (sy + d.2))
        (st.2.foldl (fun bb p => rec bb p.1 p.2)
          (st.1.setRevealed (sx + d.1) (sy + d.2))) :=
      foldl_inv (P := fun bb => Basic (st.1.setRevealed (sx + d.1) (sy + d.2)) bb)
        (fun s a hs => hs.trans (hrec s a.1 a.2)) _ _ (Basic.refl _)
    exact hbas.rev_mono hrev1

theorem fold_reveals (fuel : Nat) (b : Board) (sx sy : Int)
    (hl : b.cells.length = b.width * b.height) :
    ∀ (ds : List (Int × Int)) (st : Board × List (Int × Int)), Basic b st.1 →
      ∀ d ∈ ds, b.inB (sx + d.1, sy + d.2) →
        ¬ b.get_cell_character (sx + d.1) (sy + d.2) = MINE →
        (ds.foldl (surrStep (fun bb px py => Board.reveal_surrounding_cells fuel bb px py)
          sx sy) st).1.is_revealed (sx + d.1) (sy + d.2) = true := by
  intro ds
  induction ds with
  | nil =>
    intro st _ d hd
    exact absurd hd (by simp)
  | cons d0 ds ih =>
    intro st hst d hd hin hm
    rw [List.foldl_cons]
    have hstep : Basic b (surrStep (fun bb px py =>
        Board.reveal_surrounding_cells fuel bb px py) sx sy st d0).1 :=
      basic_surrStep (fun bb px py => basic_surr fuel bb px py) sx sy b st d0 hst
    rcases List.mem_cons.mp hd with rfl | hmem
    · have hrev := surrStep_reveals (fun bb px py => basic_surr fuel bb px py)
        sx sy b st d hst hl hin hm
      have hbas := fold_basic (fun bb px py => basic_surr fuel bb px py) sx sy ds
        (surrStep (fun bb px py => Board.reveal_surrounding_cells fuel bb px py) sx sy st d)
      exact hbas.rev_mono hrev
    · exact ih _ hstep d hmem hin hm

theorem surr_reveals_neighbors (fuel : Nat) (b : Board) (sx sy : Int)
    (hl : b.cells.length = b.width * b.height) :
    ∀ d ∈ adjacent_cells, b.inB (sx + d.1, sy + d.2) →
      ¬ b.get_cell_character (sx + d.1) (sy + d.2) = MINE →
      (Board.reveal_surrounding_cells (fuel + 1) b sx sy).is_revealed
        (sx + d.1) (sy + d.2) = true := by
  intro d hd hin hm
  rw [surr_succ]
  exact fold_reveals fuel b sx sy hl adjacent_cells (b, []) (Basic.refl b) d hd hin hm

theorem surr_stable : ∀ (n : Nat) (b : Board), b.unrevealedEmptyCount = n →
    b.cells.length = b.width * b.height →
    ∀ (f1 f2 : Nat) (sx sy : Int), n < f1 → n < f2 →
    Board.reveal_surrounding_cells f1 b sx sy =
      Board.reveal_surrounding_cells f2 b sx sy := by
  intro n
  induction n using Nat.strong_induction_on with
  | _ n ih =>
    intro b hmu hl f1 f2 sx sy hf1 hf2
    obtain ⟨m1, rfl⟩ : ∃ m1, f1 = m1 + 1 := ⟨f1 - 1, by omega⟩
    obtain ⟨m2, rfl⟩ : ∃ m2, f2 = m2 + 1 := ⟨f2 - 1, by omega⟩
    rw [surr_succ, surr_succ]
    have inner_eq : ∀ (ps : List (Int × Int)) (bb : Board), Basic b bb →
        (∀ p ∈ ps, enqProp b bb p) →
        (ps.foldl (fun b2 p => Board.reveal_surrounding_cells m1 b2 p.1 p.2) bb =
          ps.foldl (fun b2 p => Board.reveal_surrounding_cells m2 b2 p.1 p.2) bb) ∧
        Basic b (ps.foldl (fun b2 p => Board.reveal_surrounding_cells m1 b2 p.1 p.2) bb) ∧
        Basic bb (ps.foldl (fun b2 p => Board.reveal_surrounding_cells m1 b2 p.1 p.2) bb) := by
      intro ps
      induction ps with
      | nil =>
        intro bb hb _
        exact ⟨rfl, hb, Basic.refl bb⟩
      | cons p ps ihp =>
        intro bb hb hps
        have hep := hps p (List.mem_cons_self p ps)
        have hmulb : bb.unrevealedEmptyCount < n := by
          have := mu_lt hb hl hep.1 hep.2.1 hep.2.2.1 hep.2.2.2
          omega
        have heq1 : Board.reveal_surrounding_cells m1 bb p.1 p.2 =
            Board.reveal_surrounding_cells m2 bb p.1 p.2 :=
          ih bb.unrevealedEmptyCount hmulb bb rfl (basic_len hb hl) m1 m2 p.1 p.2
            (by omega) (by omega)
        have hb2 : Basic b (Board.reveal_surrounding_cells m1 bb p.1 p.2) :=
          hb.trans (basic_surr m1 bb p.1 p.2)
        have hps2 : ∀ q ∈ ps, enqProp b (Board.reveal_surrounding_cells m1 bb p.1 p.2) q :=
          fun q hq => enqProp_mono (basic_surr m1 bb p.1 p.2) (hps q (List.mem_cons_of_mem p hq))
        obtain ⟨he, hbf, hbf2⟩ := ihp (Board.reveal_surrounding_cells m1 bb p.1 p.2) hb2 hps2
        refine ⟨?_, ?_, ?_⟩
        · rw [List.foldl_cons, List.foldl_cons, ← heq1, he]
        · rw [List.foldl_cons]
          exact hbf
        · rw [List.foldl_cons]
          exact (basic_surr m1 bb p.1 p.2).trans hbf2
    have hstep : ∀ (s t : Board × List (Int × Int)) (a : Int × Int),
        (s = t ∧ Basic b s.1 ∧ ∀ p ∈ s.2, enqProp b s.1 p) →
        ((surrStep (fun bb px py => Board.reveal_surrounding_cells m1 bb px py) sx sy s a =
            surrStep (fun bb px py => Board.reveal_surrounding_cells m2 bb px py) sx sy t a) ∧
          Basic b (surrStep (fun bb px py =>
            Board.reveal_surrounding_cells m1 bb px py) sx sy s a).1 ∧
          ∀ p ∈ (surrStep (fun bb px py =>
              Board.reveal_surrounding_cells m1 bb px py) sx sy s a).2,
            enqProp b (surrStep (fun bb px py =>
              Board.reveal_surrounding_cells m1 bb px py) sx sy s a).1 p) := by
      intro s t a hR
      obtain ⟨heq, hbas, henq⟩ := hR
      subst heq
      unfold surrStep
      dsimp only
      by_cases hob : sx + a.1 < 0 ∨ sy + a.2 < 0 ∨ (s.1.width : Int) ≤ sx + a.1 ∨
          (s.1.height : Int) ≤ sy + a.2
      · rw [if_pos hob, if_pos hob]
        exact ⟨rfl, hbas, henq⟩
      · rw [if_neg hob, if_neg hob]
        push_neg at hob
        have hinb : b.inB (sx + a.1, sy + a.2) := by
          have h3 := hob.2.2.1
          have h4 := hob.2.2.2
          rw [hbas.width_eq] at h3
          rw [hbas.height_eq] at h4
          exact ⟨hob.1, h3, hob.2.1, h4⟩
        by_cases hbr : (s.1.getCell (sx + a.1) (sy + a.2)).character = EMPTY_SPACE ∧
            (s.1.getCell (sx + a.1) (sy + a.2)).revealed = false
        · rw [if_pos hbr]
          dsimp only
          have hb1 : Basic b (s.1.setRevealed (sx + a.1) (sy + a.2)) :=
            hbas.trans (basic_setRevealed _ _ _)
          have henq1 : ∀ p ∈ s.2 ++ [((sx + a.1, sy + a.2) : Int × Int)],
              enqProp b (s.1.setRevealed (sx + a.1) (sy + a.2)) p := by
            intro p hp
            rcases List.mem_append.mp hp with hp2 | hp2
            · exact enqProp_mono (basic_setRevealed _ _ _) (henq p hp2)
            · rw [List.mem_singleton] at hp2
              subst hp2
              refine ⟨hinb, ?_, ?_, ?_⟩
              · show b.get_cell_character (sx + a.1) (sy + a.2) = EMPTY_SPACE
                have hce := hbas.char_eq (sx + a.1) (sy + a.2)
                rw [← hce]
                exact hbr.1
              · show b.is_revealed (sx + a.1) (sy + a.2) = false
                cases hrb : b.is_revealed (sx + a.1) (sy + a.2)
                · rfl
                · have hmono := hbas.rev_mono hrb
                  unfold Board.is_revealed at hmono
                  rw [hbr.2] at hmono
                  exact absurd hmono Bool.false_ne_true
              · show (s.1.setRevealed (sx + a.1) (sy + a.2)).is_revealed
                    (sx + a.1) (sy + a.2) = true
                exact is_revealed_setRevealed_self (basic_len hbas hl)
                  ((hbas.inB_iff _).mpr hinb)
          obtain ⟨he, hbf, hbf2⟩ := inner_eq (s.2 ++ [(sx + a.1, sy + a.2)])
            (s.1.setRevealed (sx + a.1) (sy + a.2)) hb1 henq1
          refine ⟨?_, ?_, ?_⟩
          · rw [he]
          · exact hbf
          · intro p hp
            exact enqProp_mono hbf2 (henq1 p hp)
        · by_cases hmn : ¬ (s.1.getCell (sx + a.1) (sy + a.2)).character = MINE
          · rw [if_neg hbr, if_pos hmn]
            dsimp only
            have hb1 : Basic b (s.1.setRevealed (sx + a.1) (sy + a.2)) :=
              hbas.trans (basic_setRevealed _ _ _)
            have henq1 : ∀ p ∈ s.2, enqProp b (s.1.setRevealed (sx + a.1) (sy + a.2)) p :=
              fun p hp => enqProp_mono (basic_setRevealed _ _ _) (henq p hp)
            obtain ⟨he, hbf, hbf2⟩ := inner_eq s.2
              (s.1.setRevealed (sx + a.1) (sy + a.2)) hb1 henq1
            refine ⟨?_, ?_, ?_⟩
            · rw [he]
            · exact hbf
            · intro p hp
              exact enqProp_mono hbf2 (henq1 p hp)
          · rw [if_neg hbr, if_neg hmn]
            dsimp only
            obtain ⟨he, hbf, hbf2⟩ := inner_eq s.2 s.1 hbas henq
            refine ⟨?_, ?_, ?_⟩
            · rw [he]
            · exact hbf
            · intro p hp
              exact enqProp_mono hbf2 (henq p hp)
    have hrel := foldl_rel (R := fun st1 st2 =>
        st1 = st2 ∧ Basic b st1.1 ∧ ∀ p ∈ st1.2, enqProp b st1.1 p)
      (fun s t a hR => hstep s t a hR)
      adjacent_cells (b, []) (b, []) ⟨rfl, Basic.refl b, by simp⟩
    rw [hrel.1]

theorem foldl_inv_mem {σ α : Type} {f : σ → α → σ} {P : σ → Prop} :
    ∀ (l : List α) (s : σ), (∀ s2 a, a ∈ l → P s2 → P (f s2 a)) → P s → P (l.foldl f s)
  | [], _, _, hs => hs
  | a :: l, s, h, hs =>
    foldl_inv_mem l (f s a) (fun s2 a2 ha2 => h s2 a2 (List.mem_cons_of_mem a ha2))
      (h s a (List.mem_cons_self a l) hs)

theorem surr_sound : ∀ (fuel : Nat) (b : Board) (sx sy : Int),
    b.cells.length = b.width * b.height →
    ∀ qx qy : Int, b.inB (qx, qy) →
      (Board.reveal_surrounding_cells fuel b sx sy).is_revealed qx qy = true →
      b.is_revealed qx qy = true ∨ inRegionRing b (sx, sy) (qx, qy) := by
  intro fuel
  induction fuel with
  | zero =>
    intro b sx sy hl qx qy hq h
    rw [surr_zero] at h
    exact Or.inl h
  | succ n ih =>
    intro b sx sy hl qx qy hq h
    rw [surr_succ] at h
    have inner : ∀ (ps : List (Int × Int)) (bb : Board), Basic b bb →
        (∀ p ∈ ps, inRegion b (sx, sy) p) →
        (∀ ux uy : Int, b.inB (ux, uy) → bb.is_revealed ux uy = true →
          b.is_revealed ux uy = true ∨ inRegionRing b (sx, sy) (ux, uy)) →
        Basic bb (ps.foldl (fun b2 p => Board.reveal_surrounding_cells n b2 p.1 p.2) bb) ∧
        ∀ ux uy : Int, b.inB (ux, uy) →
          (ps.foldl (fun b2 p =>
            Board.reveal_surrounding_cells n b2 p.1 p.2) bb).is_revealed ux uy = true →
          b.is_revealed ux uy = true ∨ inRegionRing b (sx, sy) (ux, uy) := by
      intro ps
      induction ps with
      | nil =>
        intro bb _ _ hrev
        exact ⟨Basic.refl bb, hrev⟩
      | cons p ps ihp =>
        intro bb hbb hps hrev
        have hb2 : Basic b (Board.reveal_surrounding_cells n bb p.1 p.2) :=
          hbb.trans (basic_surr n bb p.1 p.2)
        have hrev2 : ∀ ux uy : Int, b.inB (ux, uy) →
            (Board.reveal_surrounding_cells n bb p.1 p.2).is_revealed ux uy = true →
            b.is_revealed ux uy = true ∨ inRegionRing b (sx, sy) (ux, uy) := by
          intro ux uy hu hr
          rcases ih bb p.1 p.2 (basic_len hbb hl) ux uy ((hbb.inB_iff _).mpr hu) hr with
            hr2 | hring
          · exact hrev ux uy hu hr2
          · have h5 : inRegionRing b p (ux, uy) :=
              (inRegionRing_transfer hbb p (ux, uy)).mp hring
            exact Or.inr (inRegionRing_compose (hps p (List.mem_cons_self p ps)) h5)
        obtain ⟨hbf, hrevf⟩ := ihp (Board.reveal_surrounding_cells n bb p.1 p.2) hb2
          (fun q hq2 => hps q (List.mem_cons_of_mem p hq2)) hrev2
        refine ⟨?_, ?_⟩
        · rw [List.foldl_cons]
          exact (basic_surr n bb p.1 p.2).trans hbf
        · rw [List.foldl_cons]
          exact hrevf
    have hstep : ∀ (st : Board × List (Int × Int)) (d : Int × Int), d ∈ adjacent_cells →
        (Basic b st.1 ∧ (∀ p ∈ st.2, enqProp b st.1 p ∧ inRegion b (sx, sy) p) ∧
          ∀ ux uy : Int, b.inB (ux, uy) → st.1.is_revealed ux uy = true →
            b.is_revealed ux uy = true ∨ inRegionRing b (sx, sy) (ux, uy)) →
        (Basic b (surrStep (fun bb px py => Board.reveal_surrounding_cells n bb px py)
            sx sy st d).1 ∧
          (∀ p ∈ (surrStep (fun bb px py => Board.reveal_surrounding_cells n bb px py)
              sx sy st d).2,
            enqProp b (surrStep (fun bb px py => Board.reveal_surrounding_cells n bb px py)
              sx sy st d).1 p ∧ inRegion b (sx, sy) p) ∧
          ∀ ux uy : Int, b.inB (ux, uy) →
            (surrStep (fun bb px py => Board.reveal_surrounding_cells n bb px py)
              sx sy st d).1.is_revealed ux uy = true →
            b.is_revealed ux uy = true ∨ inRegionRing b (sx, sy) (ux, uy)) := by
      intro st d hd hP
      obtain ⟨hbas, hpend, hrev⟩ := hP
      unfold surrStep
      dsimp only
      by_cases hob : sx + d.1 < 0 ∨ sy + d.2 < 0 ∨ (st.1.width : Int) ≤ sx + d.1 ∨
          (st.1.height : Int) ≤ sy + d.2
      · rw [if_pos hob]
        exact ⟨hbas, hpend, hrev⟩
      · rw [if_neg hob]
        push_neg at hob
        have hinb : b.inB (sx + d.1, sy + d.2) := by
          have h3 := hob.2.2.1
          have h4 := hob.2.2.2
          rw [hbas.width_eq] at h3
          rw [hbas.height_eq] at h4
          exact ⟨hob.1, h3, hob.2.1, h4⟩
        have hadj : adjacentTo (sx, sy) (sx + d.1, sy + d.2) := by
          show ((sx + d.1 - sx, sy + d.2 - sy) : Int × Int) ∈ adjacent_cells
          have e1 : sx + d.1 - sx = d.1 := by ring
          have e2 : sy + d.2 - sy = d.2 := by ring
          rw [e1, e2]
          exact hd
        by_cases hbr : (st.1.getCell (sx + d.1) (sy + d.2)).character = EMPTY_SPACE ∧
            (st.1.getCell (sx + d.1) (sy + d.2)).revealed = false
        · rw [if_pos hbr]
          dsimp only
          have hb1 : Basic b (st.1.setRevealed (sx + d.1) (sy + d.2)) :=
            hbas.trans (basic_setRevealed _ _ _)
          have hcharE : b.get_cell_character (sx + d.1) (sy + d.2) = EMPTY_SPACE := by
            have hce := hbas.char_eq (sx + d.1) (sy + d.2)
            rw [← hce]
            exact hbr.1
          have hreg_t : inRegion b (sx, sy) (sx + d.1, sy + d.2) :=
            Relation.ReflTransGen.single ⟨hinb, hcharE, hadj⟩
          have hpend1 : ∀ p ∈ st.2 ++ [((sx + d.1, sy + d.2) : Int × Int)],
              enqProp b (st.1.setRevealed (sx + d.1) (sy + d.2)) p ∧
                inRegion b (sx, sy) p := by
            intro p hp
            rcases List.mem_append.mp hp with hp2 | hp2
            · exact ⟨enqProp_mono (basic_setRevealed _ _ _) (hpend p hp2).1, (hpend p hp2).2⟩
            · rw [List.mem_singleton] at hp2
              subst hp2
              refine ⟨⟨hinb, hcharE, ?_, ?_⟩, hreg_t⟩
              · show b.is_revealed (sx + d.1) (sy + d.2) = false
                cases hrb : b.is_revealed (sx + d.1) (sy + d.2)
                · rfl
                · have hmono := hbas.rev_mono hrb
                  unfold Board.is_revealed at hmono
                  rw [hbr.2] at hmono
                  exact absurd hmono Bool.false_ne_true
              · show (st.1.setRevealed (sx + d.1) (sy + d.2)).is_revealed
                    (sx + d.1) (sy + d.2) = true
                exact is_revealed_setRevealed_self (basic_len hbas hl)
                  ((hbas.inB_iff _).mpr hinb)
          have hrev1 : ∀ ux uy : Int, b.inB (ux, uy) →
              (st.1.setRevealed (sx + d.1) (sy + d.2)).is_revealed ux uy = true →
              b.is_revealed ux uy = true ∨ inRegionRing b (sx, sy) (ux, uy) := by
            intro ux uy hu hr
            rcases (is_revealed_setRevealed_iff (basic_len hbas hl)
                ((hbas.inB_iff _).mpr hinb) ((hbas.inB_iff _).mpr hu)).mp hr with heq | hold
            · refine Or.inr (Or.inl ?_)
              rw [heq]
              exact hreg_t
            · exact hrev ux uy hu hold
          obtain ⟨hbf, hrevf⟩ := inner (st.2 ++ [(sx + d.1, sy + d.2)])
            (st.1.setRevealed (sx + d.1) (sy + d.2)) hb1
            (fun p hp => (hpend1 p hp).2) hrev1
          refine ⟨hb1.trans hbf, ?_, hrevf⟩
          intro p hp
          exact ⟨enqProp_mono hbf (hpend1 p hp).1, (hpend1 p hp).2⟩
        · by_cases hmn : ¬ (st.1.getCell (sx + d.1) (sy + d.2)).character = MINE
          · rw [if_neg hbr, if_pos hmn]
            dsimp only
            have hb1 : Basic b (st.1.setRevealed (sx + d.1) (sy + d.2)) :=
              hbas.trans (basic_setRevealed _ _ _)
            have hcharM : ¬ b.get_cell_character (sx + d.1) (sy + d.2) = MINE := by
              have hce := hbas.char_eq (sx + d.1) (sy + d.2)
              rw [← hce]
              exact hmn
            have hring_t : inRegionRing b (sx, sy) (sx + d.1, sy + d.2) :=
              Or.inr ⟨(sx, sy), Relation.ReflTransGen.refl, hadj, hinb, hcharM⟩
            have hpend1 : ∀ p ∈ st.2,
                enqProp b (st.1.setRevealed (sx + d.1) (sy + d.2)) p ∧
                  inRegion b (sx, sy) p :=
              fun p hp => ⟨enqProp_mono (basic_setRevealed _ _ _) (hpend p hp).1,
                (hpend p hp).2⟩
            have hrev1 : ∀ ux uy : Int, b.inB (ux, uy) →
                (st.1.setRevealed (sx + d.1) (sy + d.2)).is_revealed ux uy = true →
                b.is_revealed ux uy = true ∨ inRegionRing b (sx, sy) (ux, uy) := by
              intro ux uy hu hr
              rcases (is_revealed_setRevealed_iff (basic_len hbas hl)
                  ((hbas.inB_iff _).mpr hinb) ((hbas.inB_iff _).mpr hu)).mp hr with heq | hold
              · refine Or.inr ?_
                rw [heq]
                exact hring_t
              · exact hrev ux uy hu hold
            obtain ⟨hbf, hrevf⟩ := inner st.2
              (st.1.setRevealed (sx + d.1) (sy + d.2)) hb1
              (fun p hp => (hpend1 p hp).2) hrev1
            refine ⟨hb1.trans hbf, ?_, hrevf⟩
            intro p hp
            exact ⟨enqProp_mono hbf (hpend1 p hp).1, (hpend1 p hp).2⟩
          · rw [if_neg hbr, if_neg hmn]
            dsimp only
            obtain ⟨hbf, hrevf⟩ := inner st.2 st.1 hbas
              (fun p hp => (hpend p hp).2) hrev
            refine ⟨hbas.trans hbf, ?_, hrevf⟩
            intro p hp
            exact ⟨enqProp_mono hbf (hpend p hp).1, (hpend p hp).2⟩
    have hP := foldl_inv_mem (P := fun st : Board × List (Int × Int) =>
        Basic b st.1 ∧ (∀ p ∈ st.2, enqProp b st.1 p ∧ inRegion b (sx, sy) p) ∧
          ∀ ux uy : Int, b.inB (ux, uy) → st.1.is_revealed ux uy = true →
            b.is_revealed ux uy = true ∨ inRegionRing b (sx, sy) (ux, uy))
      adjacent_cells ((b, []) : Board × List (Int × Int))
      (fun s2 a ha hs2 => hstep s2 a ha hs2)
      ⟨Basic.refl b, by simp, fun ux uy hu hr => Or.inl hr⟩
    exact hP.2.2 qx qy hq h

theorem surr_expands : ∀ (n : Nat) (b : Board), b.unrevealedEmptyCount = n →
    b.cells.length = b.width * b.height →
    ∀ (m : Nat), n ≤ m → ∀ (sx sy qx qy : Int),
      b.inB (qx, qy) → b.get_cell_character qx qy = EMPTY_SPACE →
      b.is_revealed qx qy = false →
      (Board.reveal_surrounding_cells (m + 1) b sx sy).is_revealed qx qy = true →
      expandedAt b (Board.reveal_surrounding_cells (m + 1) b sx sy) qx qy := by
  intro n
  induction n using Nat.strong_induction_on with
  | _ n ih =>
    intro b hmu hl m hm sx sy qx qy hqin hqE hq0 hq1
    rw [surr_succ] at hq1 ⊢
    have inner : ∀ (L ps : List (Int × Int)), ∀ (bb : Board), Basic b bb →
        (∀ p ∈ ps, enqProp b bb p) →
        (∀ ux uy : Int, b.inB (ux, uy) → b.get_cell_character ux uy = EMPTY_SPACE →
          b.is_revealed ux uy = false → bb.is_revealed ux uy = true →
          expandedAt b bb ux uy ∨ (ux, uy) ∈ L) →
        Basic bb (ps.foldl (fun b2 p => Board.reveal_surrounding_cells m b2 p.1 p.2) bb) ∧
        (∀ p ∈ ps, expandedAt b
          (ps.foldl (fun b2 p =>
            Board.reveal_surrounding_cells m b2 p.1 p.2) bb) p.1 p.2) ∧
        (∀ ux uy : Int, b.inB (ux, uy) → b.get_cell_character ux uy = EMPTY_SPACE →
          b.is_revealed ux uy = false →
          (ps.foldl (fun b2 p =>
            Board.reveal_surrounding_cells m b2 p.1 p.2) bb).is_revealed ux uy = true →
          expandedAt b (ps.foldl (fun b2 p =>
            Board.reveal_surrounding_cells m b2 p.1 p.2) bb) ux uy ∨ (ux, uy) ∈ L) := by
      intro L ps
      induction ps with
      | nil =>
        intro bb hbb _ hD
        exact ⟨Basic.refl bb, by simp, hD⟩
      | cons p ps ihp =>
        intro bb hbb hps hD
        have hep := hps p (List.mem_cons_self p ps)
        have hmulb : bb.unrevealedEmptyCount < n :=
          hmu ▸ mu_lt hbb hl hep.1 hep.2.1 hep.2.2.1 hep.2.2.2
        obtain ⟨m2, hm2⟩ : ∃ m2, m = m2 + 1 := ⟨m - 1, by omega⟩
        subst hm2
        have hb2 : Basic bb (Board.reveal_surrounding_cells (m2 + 1) bb p.1 p.2) :=
          basic_surr (m2 + 1) bb p.1 p.2
        have hbB : Basic b (Board.reveal_surrounding_cells (m2 + 1) bb p.1 p.2) :=
          hbb.trans hb2
        have hexp_p : expandedAt b
            (Board.reveal_surrounding_cells (m2 + 1) bb p.1 p.2) p.1 p.2 := by
          intro d hd hdin hdm
          refine surr_reveals_neighbors m2 bb p.1 p.2 (basic_len hbb hl) d hd
            ((hbb.inB_iff _).mpr hdin) ?_
          intro hc
          exact hdm ((hbb.char_eq _ _).symm.trans hc)
        have hD2 : ∀ ux uy : Int, b.inB (ux, uy) →
            b.get_cell_character ux uy = EMPTY_SPACE →
            b.is_revealed ux uy = false →
            (Board.reveal_surrounding_cells (m2 + 1) bb p.1 p.2).is_revealed ux uy = true →
            expandedAt b (Board.reveal_surrounding_cells (m2 + 1) bb p.1 p.2) ux uy ∨
              (ux, uy) ∈ L := by
          intro ux uy hin hE h0 h1
          cases hbbrev : bb.is_revealed ux uy with
          | true =>
            rcases hD ux uy hin hE h0 hbbrev with hex | hmem
            · exact Or.inl (expandedAt_mono hb2 hex)
            · exact Or.inr hmem
          | false =>
            have hExp := ih bb.unrevealedEmptyCount hmulb bb rfl (basic_len hbb hl)
              m2 (by omega) p.1 p.2 ux uy ((hbb.inB_iff _).mpr hin)
              ((hbb.char_eq ux uy).trans hE) hbbrev h1
            exact Or.inl ((expandedAt_transfer hbb ux uy).mp hExp)
        have hps2 : ∀ q ∈ ps, enqProp b
            (Board.reveal_surrounding_cells (m2 + 1) bb p.1 p.2) q :=
          fun q hq => enqProp_mono hb2 (hps q (List.mem_cons_of_mem p hq))
        obtain ⟨hbf, hexpf, hDf⟩ := ihp (Board.reveal_surrounding_cells (m2 + 1) bb p.1 p.2)
          hbB hps2 hD2
        refine ⟨?_, ?_, ?_⟩
        · rw [List.foldl_cons]
          exact hb2.trans hbf
        · intro q hq
          rw [List.foldl_cons]
          rcases List.mem_cons.mp hq with rfl | hq2
          · exact expandedAt_mono hbf hexp_p
          · exact hexpf q hq2
        · rw [List.foldl_cons]
          exact hDf
    have hstep : ∀ (st : Board × List (Int × Int)) (d : Int × Int),
        (Basic b st.1 ∧ (∀ p ∈ st.2, enqProp b st.1 p) ∧
          (∀ p ∈ st.2, expandedAt b st.1 p.1 p.2) ∧
          ∀ ux uy : Int, b.inB (ux, uy) → b.get_cell_character ux uy = EMPTY_SPACE →
            b.is_revealed ux uy = false → st.1.is_revealed ux uy = true →
            expandedAt b st.1 ux uy ∨ (ux, uy) ∈ st.2) →
        (Basic b (surrStep (fun bb px py => Board.reveal_surrounding_cells m bb px py)
            sx sy st d).1 ∧
          (∀ p ∈ (surrStep (fun bb px py => Board.reveal_surrounding_cells m bb px py)
              sx sy st d).2,
            enqProp b (surrStep (fun bb px py => Board.reveal_surrounding_cells m bb px py)
              sx sy st d).1 p) ∧
          (∀ p ∈ (surrStep (fun bb px py => Board.reveal_surrounding_cells m bb px py)
              sx sy st d).2,
            expandedAt b (surrStep (fun bb px py => Board.reveal_surrounding_cells m bb px py)
              sx sy st d).1 p.1 p.2) ∧
          ∀ ux uy : Int, b.inB (ux, uy) → b.get_cell_character ux uy = EMPTY_SPACE →
            b.is_revealed ux uy = false →
            (surrStep (fun bb px py => Board.reveal_surrounding_cells m bb px py)
              sx sy st d).1.is_revealed ux uy = true →
            expandedAt b (surrStep (fun bb px py => Board.reveal_surrounding_cells m bb px py)
              sx sy st d).1 ux uy ∨
              (ux, uy) ∈ (surrStep (fun bb px py => Board.reveal_surrounding_cells m bb px py)
                sx sy st d).2) := by
      intro st d hP
      obtain ⟨hbas, hpend, hexp, hD⟩ := hP
      unfold surrStep
      dsimp only
      by_cases hob : sx + d.1 < 0 ∨ sy + d.2 < 0 ∨ (st.1.width : Int) ≤ sx + d.1 ∨
          (st.1.height : Int) ≤ sy + d.2
      · rw [if_pos hob]
        exact ⟨hbas, hpend, hexp, hD⟩
      · rw [if_neg hob]
        push_neg at hob
        have hinb : b.inB (sx + d.1, sy + d.2) := by
          have h3 := hob.2.2.1
          have h4 := hob.2.2.2
          rw [hbas.width_eq] at h3
          rw [hbas.height_eq] at h4
          exact ⟨hob.1, h3, hob.2.1, h4⟩
        by_cases hbr : (st.1.getCell (sx + d.1) (sy + d.2)).character = EMPTY_SPACE ∧
            (st.1.getCell (sx + d.1) (sy + d.2)).revealed = false
        · rw [if_pos hbr]
          dsimp only
          have hb1 : Basic b (st.1.setRevealed (sx + d.1) (sy + d.2)) :=
            hbas.trans (basic_setRevealed _ _ _)
          have hcharE : b.get_cell_character (sx + d.1) (sy + d.2) = EMPTY_SPACE := by
            have hce := hbas.char_eq (sx + d.1) (sy + d.2)
            rw [← hce]
            exact hbr.1
          have henq1 : ∀ p ∈ st.2 ++ [((sx + d.1, sy + d.2) : Int × Int)],
              enqProp b (st.1.setRevealed (sx + d.1) (sy + d.2)) p := by
            intro p hp
            rcases List.mem_append.mp hp with hp2 | hp2
            · exact enqProp_mono (basic_setRevealed _ _ _) (hpend p hp2)
            · rw [List.mem_singleton] at hp2
              subst hp2
              refine ⟨hinb, hcharE, ?_, ?_⟩
              · show b.is_revealed (sx + d.1) (sy + d.2) = false
                cases hrb : b.is_revealed (sx + d.1) (sy + d.2)
                · rfl
                · have hmono := hbas.rev_mono hrb
                  unfold Board.is_revealed at hmono
                  rw [hbr.2] at hmono
                  exact absurd hmono Bool.false_ne_true
              · show (st.1.setRevealed (sx + d.1) (sy + d.2)).is_revealed
                    (sx + d.1) (sy + d.2) = true
                exact is_revealed_setRevealed_self (basic_len hbas hl)
                  ((hbas.inB_iff _).mpr hinb)
          have hD1 : ∀ ux uy : Int, b.inB (ux, uy) →
              b.get_cell_character ux uy = EMPTY_SPACE →
              b.is_revealed ux uy = false →
              (st.1.setRevealed (sx + d.1) (sy + d.2)).is_revealed ux uy = true →
              expandedAt b (st.1.setRevealed (sx + d.1) (sy + d.2)) ux uy ∨
                (ux, uy) ∈ st.2 ++ [((sx + d.1, sy + d.2) : Int × Int)] := by
            intro ux uy hin hE h0 h1
            rcases (is_revealed_setRevealed_iff (basic_len hbas hl)
                ((hbas.inB_iff _).mpr hinb) ((hbas.inB_iff _).mpr hin)).mp h1 with heq | hold
            · exact Or.inr (List.mem_append.mpr (Or.inr (List.mem_singleton.mpr heq)))
            · rcases hD ux uy hin hE h0 hold with hex | hmem
              · exact Or.inl (expandedAt_mono (basic_setRevealed _ _ _) hex)
              · exact Or.inr (List.mem_append.mpr (Or.inl hmem))
          obtain ⟨hbf, hexpf, hDf⟩ := inner (st.2 ++ [(sx + d.1, sy + d.2)])
            (st.2 ++ [(sx + d.1, sy + d.2)])
            (st.1.setRevealed (sx + d.1) (sy + d.2)) hb1 henq1 hD1
          exact ⟨hb1.trans hbf, fun p hp => enqProp_mono hbf (henq1 p hp), hexpf, hDf⟩
        · by_cases hmn : ¬ (st.1.getCell (sx + d.1) (sy + d.2)).character = MINE
          · rw [if_neg hbr, if_pos hmn]
            dsimp only
            have hb1 : Basic b (st.1.setRevealed (sx + d.1) (sy + d.2)) :=
              hbas.trans (basic_setRevealed _ _ _)
            have henq1 : ∀ p ∈ st.2, enqProp b (st.1.setRevealed (sx + d.1) (sy + d.2)) p :=
              fun p hp => enqProp_mono (basic_setRevealed _ _ _) (hpend p hp)
            have hD1 : ∀ ux uy : Int, b.inB (ux, uy) →
                b.get_cell_character ux uy = EMPTY_SPACE →
                b.is_revealed ux uy = false →
                (st.1.setRevealed (sx + d.1) (sy + d.2)).is_revealed ux uy = true →
                expandedAt b (st.1.setRevealed (sx + d.1) (sy + d.2)) ux uy ∨
                  (ux, uy) ∈ st.2 := by
              intro ux uy hin hE h0 h1
              rcases (is_revealed_setRevealed_iff (basic_len hbas hl)
                  ((hbas.inB_iff _).mpr hinb) ((hbas.inB_iff _).mpr hin)).mp h1 with heq | hold
              · have h5 : ux = sx + d.1 := (Prod.ext_iff.mp heq).1
                have h6 : uy = sy + d.2 := (Prod.ext_iff.mp heq).2
                subst h5
                subst h6
                have hcE : (st.1.getCell (sx + d.1) (sy + d.2)).character = EMPTY_SPACE := by
                  have hce := hbas.char_eq (sx + d.1) (sy + d.2)
                  unfold Board.get_cell_character at hce
                  rw [hce]
                  exact hE
                cases hrv : (st.1.getCell (sx + d.1) (sy + d.2)).revealed with
                | false => exact absurd ⟨hcE, hrv⟩ hbr
                | true =>
                  have hst1 : st.1.is_revealed (sx + d.1) (sy + d.2) = true := hrv
                  rcases hD (sx + d.1) (sy + d.2) hinb hE h0 hst1 with hex | hmem
                  · exact Or.inl (expandedAt_mono (basic_setRevealed _ _ _) hex)
                  · exact Or.inr hmem
              · rcases hD ux uy hin hE h0 hold with hex | hmem
                · exact Or.inl (expandedAt_mono (basic_setRevealed _ _ _) hex)
                · exact Or.inr hmem
            obtain ⟨hbf, hexpf, hDf⟩ := inner st.2 st.2
              (st.1.setRevealed (sx + d.1) (sy + d.2)) hb1 henq1 hD1
            exact ⟨hb1.trans hbf, fun p hp => enqProp_mono hbf (henq1 p hp), hexpf, hDf⟩
          · rw [if_neg hbr, if_neg hmn]
            dsimp only
            obtain ⟨hbf, hexpf, hDf⟩ := inner st.2 st.2 st.1 hbas hpend hD
            exact ⟨hbas.trans hbf, fun p hp => enqProp_mono hbf (hpend p hp), hexpf, hDf⟩
    have hinit : Basic b (b, ([] : List (Int × Int))).1 ∧
        (∀ p ∈ (b, ([] : List (Int × Int))).2, enqProp b (b, ([] : List (Int × Int))).1 p) ∧
        (∀ p ∈ (b, ([] : List (Int × Int))).2,
          expandedAt b (b, ([] : List (Int × Int))).1 p.1 p.2) ∧
        ∀ ux uy : Int, b.inB (ux, uy) → b.get_cell_character ux uy = EMPTY_SPACE →
          b.is_revealed ux uy = false → (b, ([] : List (Int × Int))).1.is_revealed ux uy = true →
          expandedAt b (b, ([] : List (Int × Int))).1 ux uy ∨
            (ux, uy) ∈ (b, ([] : List (Int × Int))).2 := by
      refine ⟨Basic.refl b, by simp, by simp, ?_⟩
      intro ux uy _ _ h0 h1
      rw [h0] at h1
      exact absurd h1 Bool.false_ne_true
    have hP := foldl_inv (P := fun st : Board × List (Int × Int) =>
        Basic b st.1 ∧ (∀ p ∈ st.2, enqProp b st.1 p) ∧
          (∀ p ∈ st.2, expandedAt b st.1 p.1 p.2) ∧
          ∀ ux uy : Int, b.inB (ux, uy) → b.get_cell_character ux uy = EMPTY_SPACE →
            b.is_revealed ux uy = false → st.1.is_revealed ux uy = true →
            expandedAt b st.1 ux uy ∨ (ux, uy) ∈ st.2)
      hstep adjacent_cells ((b, []) : Board × List (Int × Int)) hinit
    rcases hP.2.2.2 qx qy hqin hqE hq0 hq1 with hex | hmem
    · exact hex
    · exact hP.2.2.1 (qx, qy) hmem

/-- C9: for every consistent board and in-bounds starting coordinate, the
flood-fill recursion started by `reveal_cell` terminates: the recursion
depth `reveal_cell` needs is bounded (by the number of unrevealed empty
cells, itself at most width*height), and every depth beyond
width*height yields the identical board. -/
theorem C9_flood_fill_terminates (b : Board) (x y : Int)
    (hl : b.cells.length = b.width * b.height) (hin : b.inB (x, y))
    (fuel : Nat) (hf : b.width * b.height < fuel) :
    Board.reveal_cell b x y =
      if ((b.setRevealed x y).getCell x y).character = EMPTY_SPACE then
        Board.reveal_surrounding_cells fuel (b.setRevealed x y) x y
      else b.setRevealed x y := by
  unfold Board.reveal_cell
  dsimp only
  by_cases hE : ((b.setRevealed x y).getCell x y).character = EMPTY_SPACE
  · rw [if_pos hE, if_pos hE]
    have hb2 : Basic b (b.setRevealed x y) := basic_setRevealed b x y
    have hl2 : (b.setRevealed x y).cells.length =
        (b.setRevealed x y).width * (b.setRevealed x y).height := basic_len hb2 hl
    have hmu : (b.setRevealed x y).unrevealedEmptyCount ≤ b.width * b.height := by
      have h1 : (b.setRevealed x y).cells.countP emptyUnrevealed ≤
          (b.setRevealed x y).cells.length := List.countP_le_length _
      rw [hb2.length_eq, hl] at h1
      exact h1
    exact surr_stable (b.setRevealed x y).unrevealedEmptyCount (b.setRevealed x y) rfl hl2
      ((b.setRevealed x y).unrevealedEmptyCount + 1) fuel x y (by omega) (by omega)
  · rw [if_neg hE, if_neg hE]

theorem C9_witness :
    (exBoard3.cells.length = exBoard3.width * exBoard3.height ∧ exBoard3.inB (0, 0) ∧
      exBoard3.width * exBoard3.height < 10) ∧
    Board.reveal_cell exBoard3 0 0 =
      (if ((exBoard3.setRevealed 0 0).getCell 0 0).character = EMPTY_SPACE then
        Board.reveal_surrounding_cells 10 (exBoard3.setRevealed 0 0) 0 0
      else exBoard3.setRevealed 0 0) :=
  ⟨⟨by decide, by decide, by decide⟩,
    C9_flood_fill_terminates exBoard3 0 0 (by decide) (by decide) 10 (by decide)⟩

/-- C2: on a fresh board (no cell revealed yet), revealing an in-bounds
empty cell reveals exactly the maximal 8-connected region of empty cells
containing the start plus the ring of non-mine cells bordering that
region, and reveals no mine cell. -/
theorem C2_flood_fill_region (b : Board) (x y : Int)
    (hl : b.cells.length = b.width * b.height)
    (hfresh : ∀ c ∈ b.cells, c.revealed = false)
    (hin : b.inB (x, y))
    (hE : b.get_cell_character x y = EMPTY_SPACE) :
    ∀ qx qy : Int, b.inB (qx, qy) →
      (((b.reveal_cell x y).is_revealed qx qy = true) ↔
        inRegionRing b (x, y) (qx, qy)) ∧
      (b.get_cell_character qx qy = MINE →
        (b.reveal_cell x y).is_revealed qx qy = false) := by
  obtain ⟨b2, hb2e⟩ : ∃ b2, b2 = b.setRevealed x y := ⟨_, rfl⟩
  obtain ⟨r, hre⟩ : ∃ r,
      r = Board.reveal_surrounding_cells (b2.unrevealedEmptyCount + 1) b2 x y := ⟨_, rfl⟩
  have hb2 : Basic b b2 := by
    rw [hb2e]
    exact basic_setRevealed b x y
  have hl2 : b2.cells.length = b2.width * b2.height := basic_len hb2 hl
  have hE2 : (b2.getCell x y).character = EMPTY_SPACE := by
    have hce := hb2.char_eq x y
    unfold Board.get_cell_character at hce
    rw [hce]
    exact hE
  have hrc : b.reveal_cell x y = r := by
    rw [hre, hb2e]
    unfold Board.reveal_cell
    dsimp only
    rw [if_pos (show ((b.setRevealed x y).getCell x y).character = EMPTY_SPACE by
      rw [← hb2e]; exact hE2)]
  have hbr : Basic b2 r := by
    rw [hre]
    exact basic_surr _ _ _ _
  have hstart_rev : r.is_revealed x y = true := by
    refine hbr.rev_mono ?_
    rw [hb2e]
    exact is_revealed_setRevealed_self hl hin
  have hstart_exp : expandedAt b r x y := by
    intro d hd hdin hdm
    rw [hre]
    refine surr_reveals_neighbors b2.unrevealedEmptyCount b2 x y hl2 d hd
      ((hb2.inB_iff _).mpr hdin) ?_
    intro hc
    exact hdm ((hb2.char_eq _ _).symm.trans hc)
  have hfreshq : ∀ ux uy : Int, b.inB (ux, uy) → b.is_revealed ux uy = false :=
    fun ux uy hu => fresh_rev hfresh hl hu
  have hb2rev : ∀ ux uy : Int, b.inB (ux, uy) →
      (b2.is_revealed ux uy = true ↔ ((ux, uy) : Int × Int) = (x, y)) := by
    intro ux uy hu
    rw [hb2e, is_revealed_setRevealed_iff hl hin hu]
    constructor
    · rintro (h | h)
      · exact h
      · rw [hfreshq ux uy hu] at h
        exact absurd h Bool.false_ne_true
    · exact Or.inl
  have hregexp : ∀ p : Int × Int, inRegion b (x, y) p →
      r.is_revealed p.1 p.2 = true ∧ expandedAt b r p.1 p.2 := by
    intro p hp
    induction hp with
    | refl => exact ⟨hstart_rev, hstart_exp⟩
    | @tail p2 q hab hbc ih =>
      obtain ⟨hinq, hEq, hadj⟩ := hbc
      have e1 : p2.1 + (q.1 - p2.1) = q.1 := by ring
      have e2 : p2.2 + (q.2 - p2.2) = q.2 := by ring
      have hrevq : r.is_revealed q.1 q.2 = true := by
        have h5 := ih.2 (q.1 - p2.1, q.2 - p2.2) hadj
          (by show b.inB (p2.1 + (q.1 - p2.1), p2.2 + (q.2 - p2.2))
              rw [e1, e2]
              exact hinq)
          (by show ¬ b.get_cell_character (p2.1 + (q.1 - p2.1)) (p2.2 + (q.2 - p2.2)) = MINE
              rw [e1, e2, hEq]
              decide)
        dsimp only at h5
        rw [e1, e2] at h5
        exact h5
      refine ⟨hrevq, ?_⟩
      by_cases hq0 : q = ((x, y) : Int × Int)
      · subst hq0
        exact hstart_exp
      · have hq2rev : b2.is_revealed q.1 q.2 = false := by
          cases h7 : b2.is_revealed q.1 q.2 with
          | false => rfl
          | true =>
            have h8 : ((q.1, q.2) : Int × Int) = (x, y) := (hb2rev q.1 q.2 hinq).mp h7
            exact absurd (Prod.mk.eta.symm.trans h8) hq0
        have hexpq := surr_expands b2.unrevealedEmptyCount b2 rfl hl2
          b2.unrevealedEmptyCount (le_refl _) x y q.1 q.2
          ((hb2.inB_iff _).mpr hinq) ((hb2.char_eq _ _).trans hEq) hq2rev
          (by rw [← hre]; exact hrevq)
        rw [← hre] at hexpq
        exact (expandedAt_transfer hb2 q.1 q.2).mp hexpq
  intro qx qy hq
  rw [hrc]
  have hiff : r.is_revealed qx qy = true ↔ inRegionRing b (x, y) (qx, qy) := by
    constructor
    · intro h
      have hs := surr_sound (b2.unrevealedEmptyCount + 1) b2 x y hl2 qx qy
        ((hb2.inB_iff _).mpr hq) (by rw [← hre]; exact h)
      rcases hs with h1 | h2
      · have h8 : ((qx, qy) : Int × Int) = (x, y) := (hb2rev qx qy hq).mp h1
        rw [h8]
        exact Or.inl Relation.ReflTransGen.refl
      · exact (inRegionRing_transfer hb2 _ _).mp h2
    · intro h
      rcases h with hreg | ⟨p2, hreg, hadj, hinq, hnm⟩
      · exact (hregexp (qx, qy) hreg).1
      · have e1 : p2.1 + (qx - p2.1) = qx := by ring
        have e2 : p2.2 + (qy - p2.2) = qy := by ring
        have h5 := (hregexp p2 hreg).2 (qx - p2.1, qy - p2.2) hadj
          (by show b.inB (p2.1 + (qx - p2.1), p2.2 + (qy - p2.2))
              rw [e1, e2]
              exact hinq)
          (by show ¬ b.get_cell_character (p2.1 + (qx - p2.1)) (p2.2 + (qy - p2.2)) = MINE
              rw [e1, e2]
              exact hnm)
        dsimp only at h5
        rw [e1, e2] at h5
        exact h5
  refine ⟨hiff, ?_⟩
  intro hM
  cases hrv : r.is_revealed qx qy with
  | false => rfl
  | true =>
    exfalso
    rcases hiff.mp hrv with hreg | ⟨p2, _, _, _, hnm⟩
    · rcases Relation.ReflTransGen.cases_tail hreg with h8 | ⟨c, _, hstep⟩
      · have h9 : qx = x := (Prod.ext_iff.mp h8).1
        have h10 : qy = y := (Prod.ext_iff.mp h8).2
        rw [h9, h10, hE] at hM
        exact absurd hM (by decide)
      · have hc2 := hstep.2.1
        dsimp only at hc2
        rw [hM] at hc2
        exact absurd hc2 (by decide)
    · dsimp only at hnm
      exact hnm hM

theorem C2_witness :
    (exBoard3.cells.length = exBoard3.width * exBoard3.height ∧
      (∀ c ∈ exBoard3.cells, c.revealed = false) ∧
      exBoard3.inB (0, 0) ∧ exBoard3.get_cell_character 0 0 = EMPTY_SPACE ∧
      exBoard3.inB (2, 0)) ∧
    (((exBoard3.reveal_cell 0 0).is_revealed 2 0 = true ↔
        inRegionRing exBoard3 (0, 0) (2, 0)) ∧
      (exBoard3.get_cell_character 2 0 = MINE →
        (exBoard3.reveal_cell 0 0).is_revealed 2 0 = false)) :=
  ⟨⟨by decide, by decide, by decide, by decide, by decide⟩,
    C2_flood_fill_region exBoard3 0 0 (by decide) (by decide) (by decide) (by decide)
      2 0 (by decide)⟩
